import Mathlib

/-!
# Verification of `patch_android_storage.py`

A shallow embedding of the Android storage patcher script.  Text is modelled
as `List Char`; the file system as an association list from paths (lists of
components) to texts.  The script's regular expressions fall into a small
fragment (literals, `\s*` / `\s+` gaps whose following literal starts with a
non-whitespace character, a single leading capture group, and a trailing
negative lookahead `(?!/)`); for that fragment greedy maximal-munch matching
coincides with Python's backtracking semantics, and the matcher below
implements it.  Console/colour output and the text log file are presentation
glue and are not modelled.
-/

set_option maxRecDepth 16384

namespace PatchAndroid

abbrev Text := List Char

/-- Python's `\s` on the ASCII characters the script can meet. -/
def pyWs (c : Char) : Bool :=
  c = ' ' || c = '\t' || c = '\n' || c = '\r' || c = '\x0b' || c = '\x0c'

/-- `str.split('\n')`: always returns at least one (possibly empty) line. -/
def splitNl : Text → List Text
  | [] => [[]]
  | c :: rest =>
    if c = '\n' then [] :: splitNl rest
    else
      match splitNl rest with
      | [] => [[c]]
      | l :: ls => (c :: l) :: ls

/-- `'\n'.join`. -/
def joinNl (ls : List Text) : Text := List.intercalate ['\n'] ls

/-- Number of newline characters in a text. -/
def countNl (t : Text) : Nat := t.countP (fun c => c = '\n')

/-- 1-based line number of the character position `pos` in `t`
(`content[:pos].count('\n') + 1`). -/
def lineNumAt (t : Text) (pos : Nat) : Nat := countNl (t.take pos) + 1

/-- The full line containing position `pos` of `t`: characters from just after
the previous newline up to (excluding) the next newline, as the script computes
it with `rfind`/`find`. -/
def lineAt (t : Text) (pos : Nat) : Text :=
  ((t.take pos).reverse.takeWhile (fun c => c ≠ '\n')).reverse
    ++ (t.drop pos).takeWhile (fun c => c ≠ '\n')

/-- `AndroidStoragePatcher.is_comment_line`: `line.strip().startswith('#')`. -/
def is_comment_line (l : Text) : Bool :=
  (l.dropWhile pyWs).head? = some '#'

/-! ## The regular-expression fragment used by the script -/

/-- One token of a pattern: a literal run of characters, `\s*`, or `\s+`.
Every `ws0`/`ws1` in the script's patterns is followed by a literal starting
with a non-whitespace character, so greedy maximal munch is exact. -/
inductive Tok where
  | lit : Text → Tok
  | ws0 : Tok
  | ws1 : Tok
deriving DecidableEq

/-- Length of the leading whitespace run. -/
def wsRun (s : Text) : Nat := (s.takeWhile pyWs).length

/-- Match a token list against a prefix of `s`; returns the number of
characters consumed and the rest of the text. -/
def matchToks : List Tok → Text → Option (Nat × Text)
  | [], s => some (0, s)
  | Tok.lit l :: ts, s =>
    if l.isPrefixOf s then
      (matchToks ts (s.drop l.length)).map (fun p => (l.length + p.1, p.2))
    else none
  | Tok.ws0 :: ts, s =>
    (matchToks ts (s.drop (wsRun s))).map (fun p => (wsRun s + p.1, p.2))
  | Tok.ws1 :: ts, s =>
    if wsRun s = 0 then none
    else (matchToks ts (s.drop (wsRun s))).map (fun p => (wsRun s + p.1, p.2))

/-- A substitution rule of the script: an optional leading capture group
`pre` (referenced as `\1` in the replacement when `useGroup` is set), the rest
of the pattern `post`, an optional trailing negative lookahead `(?!/)`, and
the literal tail of the replacement. -/
structure Rule where
  pre : List Tok
  post : List Tok
  notSlash : Bool
  useGroup : Bool
  repl : Text
deriving DecidableEq

/-- Try to match a rule at the start of `s`; on success returns the length of
the matched text and the full replacement text. -/
def ruleMatchAt (r : Rule) (s : Text) : Option (Nat × Text) :=
  match matchToks r.pre s with
  | none => none
  | some (n1, s1) =>
    match matchToks r.post s1 with
    | none => none
    | some (n2, s2) =>
      if r.notSlash && s2.head? = some '/' then none
      else some (n1 + n2, (if r.useGroup then s.take n1 else []) ++ r.repl)

/-- Fuel-indexed left-to-right non-overlapping scan of `re.finditer`/`re.sub`.
The fuel only serves structural recursion; any fuel at least the text length
gives the same result (`scanFromF_fuel`). -/
def scanFromF (r : Rule) : Nat → Text → Nat → List (Nat × Nat) × Text
  | 0, s, _ => ([], s)
  | _ + 1, [], _ => ([], [])
  | f + 1, c :: rest, pos =>
    match ruleMatchAt r (c :: rest) with
    | none =>
      let p := scanFromF r f rest (pos + 1)
      (p.1, c :: p.2)
    | some (len, rep) =>
      if len = 0 then
        let p := scanFromF r f rest (pos + 1)
        ((pos, len) :: p.1, rep ++ c :: p.2)
      else
        let p := scanFromF r f ((c :: rest).drop len) (pos + len)
        ((pos, len) :: p.1, rep ++ p.2)

/-- The scan of `re.finditer`/`re.sub`: the list of `(absolute start, length)`
of every match together with the rewritten text.  `pos` is the absolute
position of the head of `s` in the scanned text. -/
def scanFrom (r : Rule) (s : Text) (pos : Nat) : List (Nat × Nat) × Text :=
  scanFromF r s.length s pos

/-- All matches of `r` in `t` (as `re.finditer`) and the rewritten text
(as `re.sub`). -/
def subAndMatches (r : Rule) (t : Text) : List (Nat × Nat) × Text :=
  scanFrom r t 0

/-- Whether `r` matches anywhere in `t` (as `re.search`). -/
def hasMatchIn (r : Rule) (t : Text) : Bool :=
  t.tails.any (fun s => (ruleMatchAt r s).isSome)

/-- 1-based line numbers of the occurrences of the literal `lit` in `t`. -/
def occLines (lit : Text) (t : Text) : List Nat :=
  ((List.range (t.length + 1)).filter
      (fun i => lit.isPrefixOf (t.drop i))).map (fun i => lineNumAt t i)

/-! ## Data structures of the script -/

/-- The `Change` dataclass.  `old_value` and `new_value` default to `""`. -/
structure Change where
  line_number : Nat
  description : String
  old_value : String := ""
  new_value : String := ""
deriving DecidableEq

/-- A substitution rule together with its label-derived description. -/
structure RuleD where
  rule : Rule
  desc : String
deriving DecidableEq

/-! ## Project configuration -/

def EXTERNAL_STORAGE_BASE : String := "/storage/emulated/0/smb1r.android"

/-- `"{EXTERNAL_STORAGE_BASE}<sub>"` with surrounding double quotes. -/
def extQuoted (sub : String) : Text :=
  ("\"" ++ EXTERNAL_STORAGE_BASE ++ sub ++ "\"").data

/-- A rule whose pattern is a plain quoted literal. -/
def litRule (pat : String) (repl : Text) : Rule :=
  ⟨[], [Tok.lit pat.data], false, false, repl⟩

/-- A plain literal rule with the trailing negative lookahead `(?!/)`. -/
def litRuleNoSlash (pat : String) (repl : Text) : Rule :=
  ⟨[], [Tok.lit pat.data], true, false, repl⟩

/-- A rule of shape `(const\s+NAME\s*:=\s*)"pat"` with replacement
`\1` followed by `repl`. -/
def constRule (name : String) (pat : String) (repl : Text) : Rule :=
  ⟨[Tok.lit "const".data, Tok.ws1, Tok.lit name.data, Tok.ws0,
      Tok.lit ":=".data, Tok.ws0],
   [Tok.lit pat.data], false, true, repl⟩

/-! ## Rewrite application schemes -/

/-- Changes recorded while scanning one rule over text `t`: one per match,
skipping (for `SaveManager.gd`) matches whose surrounding line is a comment. -/
def stageChanges (commentFilter : Bool) (t : Text) (desc : String)
    (ms : List (Nat × Nat)) : List Change :=
  ms.filterMap (fun m =>
    if commentFilter && is_comment_line (lineAt t m.1) then none
    else some { line_number := lineNumAt t m.1, description := desc })

/-- One `for m in re.finditer(...): ...; content = re.sub(...)` stage. -/
def applyStage (commentFilter : Bool) (t : Text) (rd : RuleD) :
    Text × List Change :=
  ((subAndMatches rd.rule t).2,
   stageChanges commentFilter t rd.desc (subAndMatches rd.rule t).1)

/-- The loop of `patch_save_manager` / `patch_resource_pack_loader` /
`patch_tscn_files`: every rule applied in order to the progressively
rewritten content, recording one `Change` per (non-filtered) match. -/
def applyAllMatches (commentFilter : Bool) (rules : List RuleD) (t : Text) :
    Text × List Change :=
  rules.foldl (fun acc rd =>
    ((applyStage commentFilter acc.1 rd).1,
     acc.2 ++ (applyStage commentFilter acc.1 rd).2)) (t, [])

/-- The loop of `patch_global_gd` / `patch_settings_manager` /
`patch_mod_loader_path`: per rule, `re.search` for the first match; if found,
record a single `Change` at its line and `re.sub` all occurrences. -/
def applySearch (rules : List RuleD) (t : Text) : Text × List Change :=
  rules.foldl (fun acc rd =>
    match subAndMatches rd.rule acc.1 with
    | ([], _) => acc
    | (m :: _, t') =>
      (t', acc.2 ++ [{ line_number := lineNumAt acc.1 m.1, description := rd.desc }]))
    (t, [])

/-! ## The concrete rule tables -/

/-- `patch_global_gd` replacements. -/
def globalGdRules : List RuleD :=
  [⟨constRule "ROM_POINTER_PATH" "\"user://rom_pointer.smb\""
      (extQuoted "/rom_pointer.smb"), "ROM_POINTER_PATH actualizado"⟩,
   ⟨constRule "ROM_PATH" "\"user://baserom.nes\""
      (extQuoted "/baserom.nes"), "ROM_PATH actualizado"⟩,
   ⟨constRule "ROM_ASSETS_PATH" "\"user://resource_packs/BaseAssets\""
      (extQuoted "/resource_packs/BaseAssets"), "ROM_ASSETS_PATH actualizado"⟩]

/-- `patch_settings_manager` replacements. -/
def settingsManagerRules : List RuleD :=
  [⟨constRule "SETTINGS_DIR" "\"user://settings.cfg\""
      (extQuoted "/settings.cfg"), "SETTINGS_DIR actualizado"⟩,
   ⟨⟨[], [Tok.lit "DirAccess.make_dir_absolute".data, Tok.ws0,
        Tok.lit "(".data, Tok.ws0, Tok.lit "\"user://resource_packs\"".data,
        Tok.ws0, Tok.lit ")".data], false, false,
      ("DirAccess.make_dir_recursive_absolute(\"" ++ EXTERNAL_STORAGE_BASE
        ++ "/resource_packs\")").data⟩,
    "make_dir resource_packs actualizado"⟩]

/-- `patch_mod_loader_path` replacement. -/
def modLoaderRules : List RuleD :=
  [⟨constRule "MOD_CONFIG_DIR_PATH" "\"user://mod_configs\""
      (extQuoted "/mod_configs"), "MOD_CONFIG_DIR_PATH actualizado"⟩]

/-- `patch_save_manager` replacements, in their order-sensitive sequence. -/
def saveManagerRules : List RuleD :=
  [⟨constRule "SAVE_DIR" "\"user://saves/CAMPAIGN.sav\""
      (extQuoted "/saves/CAMPAIGN.sav"), "SAVE_DIR constante actualizado"⟩,
   ⟨⟨[], [Tok.lit "DirAccess.make_dir_recursive_absolute".data, Tok.ws0,
        Tok.lit "(".data, Tok.ws0, Tok.lit "\"user://saves\"".data,
        Tok.ws0, Tok.lit ")".data], false, false,
      ("DirAccess.make_dir_recursive_absolute(\"" ++ EXTERNAL_STORAGE_BASE
        ++ "/saves\")").data⟩,
    "make_dir saves actualizado"⟩,
   ⟨litRule "\"user://saves/\"" (extQuoted "/saves/"), "saves/ actualizado"⟩,
   ⟨litRuleNoSlash "\"user://saves\"" (extQuoted "/saves"), "saves actualizado"⟩,
   ⟨litRule "\"user://achievements.sav\"" (extQuoted "/achievements.sav"),
    "achievements.sav actualizado"⟩,
   ⟨litRule "\"user://marathon_recordings/\"" (extQuoted "/marathon_recordings/"),
    "marathon_recordings/ actualizado"⟩,
   ⟨litRuleNoSlash "\"user://marathon_recordings\"" (extQuoted "/marathon_recordings"),
    "marathon_recordings actualizado"⟩]

/-- `patch_resource_pack_loader` replacements. -/
def resourcePackRules : List RuleD :=
  [⟨litRule "\"user://resource_packs/\"" (extQuoted "/resource_packs/"),
    "resource_packs/ actualizado"⟩,
   ⟨litRuleNoSlash "\"user://resource_packs\"" (extQuoted "/resource_packs"),
    "resource_packs actualizado"⟩]

/-- `patch_tscn_files` replacements; every change is logged with the same
description. -/
def tscnRules : List RuleD :=
  [⟨litRule "\"user://saves/\"" (extQuoted "/saves/"), "Referencia user:// actualizada"⟩,
   ⟨litRuleNoSlash "\"user://saves\"" (extQuoted "/saves"), "Referencia user:// actualizada"⟩,
   ⟨litRule "\"user://achievements.sav\"" (extQuoted "/achievements.sav"),
    "Referencia user:// actualizada"⟩,
   ⟨litRule "\"user://marathon_recordings/\"" (extQuoted "/marathon_recordings/"),
    "Referencia user:// actualizada"⟩,
   ⟨litRuleNoSlash "\"user://marathon_recordings\"" (extQuoted "/marathon_recordings"),
    "Referencia user:// actualizada"⟩,
   ⟨litRule "\"user://mod_configs/\"" (extQuoted "/mod_configs/"),
    "Referencia user:// actualizada"⟩,
   ⟨litRuleNoSlash "\"user://mod_configs\"" (extQuoted "/mod_configs"),
    "Referencia user:// actualizada"⟩,
   ⟨litRule "\"user://resource_packs/\"" (extQuoted "/resource_packs/"),
    "Referencia user:// actualizada"⟩,
   ⟨litRuleNoSlash "\"user://resource_packs\"" (extQuoted "/resource_packs"),
    "Referencia user:// actualizada"⟩]

/-! ## Per-file text cores -/

def patch_save_manager_core (t : Text) : Text × List Change :=
  applyAllMatches true saveManagerRules t

def patch_resource_pack_loader_core (t : Text) : Text × List Change :=
  applyAllMatches false resourcePackRules t

def patch_tscn_core (t : Text) : Text × List Change :=
  applyAllMatches false tscnRules t

def patch_global_gd_core (t : Text) : Text × List Change :=
  applySearch globalGdRules t

def patch_settings_manager_core (t : Text) : Text × List Change :=
  applySearch settingsManagerRules t

def patch_mod_loader_path_core (t : Text) : Text × List Change :=
  applySearch modLoaderRules t

/-- One permission pattern of `patch_export_presets`: the captured group
`\s*permissions/<name>\s*=\s*`. -/
def presetPre (name : String) : List Tok :=
  [Tok.ws0, Tok.lit ("permissions/" ++ name).data, Tok.ws0,
   Tok.lit "=".data, Tok.ws0]

/-- `re.match(r'^(\s*permissions/<name>\s*=\s*)false\s*$', line)`: on success,
the rewritten line `group(1) + "true"`. -/
def presetTry (l : Text) (name : String) : Option (Text × String) :=
  match matchToks (presetPre name) l with
  | none => none
  | some (n1, s1) =>
    if "false".data.isPrefixOf s1 && (s1.drop 5).all pyWs then
      some (l.take n1 ++ "true".data, name)
    else none

def presetNames : List String :=
  ["manage_external_storage", "read_external_storage", "write_external_storage"]

/-- One line of the `patch_export_presets` loop: the first matching pattern
(if any) rewrites the line and records one `Change`. -/
def presetLine (i : Nat) (l : Text) : Text × List Change :=
  match presetNames.findSome? (fun n => presetTry l n) with
  | none => (l, [])
  | some (nl, name) =>
    (nl, [{ line_number := i, description := name ++ " = true" }])

def patch_export_presets_core (t : Text) : Text × List Change :=
  let processed := ((splitNl t).enumFrom 1).map (fun p => presetLine p.1 p.2)
  (joinNl (processed.map Prod.fst), (processed.map Prod.snd).flatten)

/-! ## Detection and verification patterns -/

/-- The alternatives of `r'"user://(saves|achievements|marathon_recordings|mod_configs|resource_packs)[^"]*"'`. -/
def tscnAlts : List String :=
  ["saves", "achievements", "marathon_recordings", "mod_configs", "resource_packs"]

/-- Whether the tscn detection pattern matches at the start of `s`.
`[^"]*"` succeeds exactly when some later double quote exists. -/
def tscnDetectAt (s : Text) : Bool :=
  tscnAlts.any (fun a =>
    ("\"user://" ++ a).data.isPrefixOf s &&
      (s.drop ("\"user://" ++ a).data.length).any (fun c => c = '"'))

/-- `re.search` of the tscn detection pattern over a whole text. -/
def tscnDetect (t : Text) : Bool := t.tails.any tscnDetectAt

/-- One alternative of the `verify_patches` combined pattern: either an exact
quoted literal, or a literal that must be followed by `"` or `/`
(the `["/]` character class). -/
inductive VPat where
  | exact : String → VPat
  | quoteSlash : String → VPat
deriving DecidableEq

/-- The eight forbidden `user://` patterns of `verify_patches`. -/
def verifyPatterns : List VPat :=
  [VPat.quoteSlash "\"user://saves",
   VPat.exact "\"user://achievements.sav\"",
   VPat.quoteSlash "\"user://marathon_recordings",
   VPat.quoteSlash "\"user://mod_configs",
   VPat.exact "\"user://settings.cfg\"",
   VPat.exact "\"user://baserom.nes\"",
   VPat.exact "\"user://rom_pointer.smb\"",
   VPat.quoteSlash "\"user://resource_packs"]

def vMatchAt (p : VPat) (s : Text) : Bool :=
  match p with
  | VPat.exact l => l.data.isPrefixOf s
  | VPat.quoteSlash l =>
    l.data.isPrefixOf s &&
      (match (s.drop l.data.length).head? with
       | some c => c = '"' || c = '/'
       | none => false)

/-- `re.search(combined, t)`: some forbidden pattern matches somewhere. -/
def textHasForbidden (t : Text) : Bool :=
  t.tails.any (fun s => verifyPatterns.any (fun p => vMatchAt p s))

/-! ## The file system

Paths are lists of components relative to the project root; the file system
is an association list of files.  `rglob` enumerates files in the list's
order (the OS order is unspecified anyway). -/

abbrev Path := List String

abbrev FS := List (Path × Text)

def readFS : FS → Path → Option Text
  | [], _ => none
  | (q, c) :: rest, p => if q = p then some c else readFS rest p

/-- Overwrite the (first) file at `p`, or create it at the end. -/
def setFS : FS → Path → Text → FS
  | [], p, c => [(p, c)]
  | (q, d) :: rest, p, c =>
    if q = p then (p, c) :: rest else (q, d) :: setFS rest p c

def keysFS (fs : FS) : List Path := fs.map Prod.fst

/-- `rglob("*<ext>")`: the file name ends with `ext`. -/
def extIs (ext : String) (p : Path) : Bool :=
  match p.getLast? with
  | some name => ext.data.isSuffixOf name.data
  | none => false

def gdFile (p : Path) : Bool := extIs ".gd" p

def tscnFile (p : Path) : Bool := extIs ".tscn" p

def tscnPaths (fs : FS) : List Path := (keysFS fs).filter tscnFile

/-! ## `verify_patches`

Residual references are reported as `(path, some line)` for `.gd` files
(scanned line by line, skipping comment lines) and `(path, none)` for
`.tscn` files (scanned as a whole); the script formats these as
`f"{rel}:{i}"` and `str(rel)`. -/

/-- The per-line scan of one `.gd` file. -/
def gdLineHits (p : Path) (c : Text) : List (Path × Option Nat) :=
  ((splitNl c).enumFrom 1).filterMap (fun pr =>
    if !is_comment_line pr.2 && textHasForbidden pr.2 then some (p, some pr.1)
    else none)

def verify_patches (fs : FS) : Bool × List (Path × Option Nat) :=
  let gdRem := ((fs.filter (fun e => gdFile e.1)).map
      (fun e => gdLineHits e.1 e.2)).flatten
  let tscnRem := (fs.filter (fun e => tscnFile e.1)).filterMap
      (fun e => if textHasForbidden e.2 then some (e.1, (none : Option Nat)) else none)
  let remaining := gdRem ++ tscnRem
  (remaining.isEmpty, remaining)

/-! ## File results and the patch steps -/

/-- The `FileResult` dataclass. -/
structure FileResult where
  filepath : Path
  success : Bool
  changes : List Change := []
  error : Option String := none
  backup_path : Option Path := none
deriving DecidableEq

inductive WriteCond where
  | whenChanges
  | whenDiff
deriving DecidableEq

/-- One per-file patch operation: its fixed target, pure rewrite core, the
condition under which the rewritten text is written back, whether a missing
file still counts as success (`ResourcePackLoader.gd` only), its
missing-file message, and (for `.tscn` files) the detection gate. -/
structure Step where
  target : Path
  core : Text → Text × List Change
  wcond : WriteCond
  optionalFile : Bool
  errMsg : String
  detect : Option (Text → Bool)

/-- `self.backup_dir / rel_path` for this run's timestamp. -/
def backupPath (ts : String) (p : Path) : Path := "backups" :: ts :: p

/-- The dummy path `filepath.with_suffix(suffix + '.backup')` that
`create_backup` returns in dry-run mode. -/
def dryBackupPath (p : Path) : Path :=
  p.dropLast ++ [(p.getLast?.getD "") ++ ".backup"]

structure PatcherSt where
  fs : FS
  results : List FileResult

/-- Execute one patch operation: check existence, detection gate, back up the
original, run the core and conditionally write the result, appending one
`FileResult` (none at all when the detection gate rejects the file). -/
def execStep (ts : String) (dry : Bool) (st : PatcherSt) (step : Step) : PatcherSt :=
  match readFS st.fs step.target with
  | none =>
    { st with
      results := st.results ++
        [{ filepath := step.target, success := step.optionalFile,
           error := some step.errMsg }] }
  | some content =>
    if (match step.detect with | some d => !(d content) | none => false) then st
    else
      let fs1 := if dry then st.fs else setFS st.fs (backupPath ts step.target) content
      let bp := if dry then dryBackupPath step.target else backupPath ts step.target
      let out := step.core content
      let doWrite := !dry &&
        (match step.wcond with
         | WriteCond.whenChanges => !out.2.isEmpty
         | WriteCond.whenDiff => !decide (out.1 = content))
      { fs := if doWrite then setFS fs1 step.target out.1 else fs1,
        results := st.results ++
          [{ filepath := step.target, success := true, changes := out.2,
             backup_path := some bp }] }

def projectGodotPath : Path := ["project.godot"]
def exportPresetsPath : Path := ["export_presets.cfg"]
def globalGdPath : Path := ["Scripts", "Classes", "Singletons", "Global.gd"]
def settingsManagerPath : Path := ["Scripts", "Classes", "Singletons", "SettingsManager.gd"]
def modLoaderPathGd : Path := ["addons", "mod_loader", "internal", "path.gd"]
def saveManagerPath : Path := ["Scripts", "Classes", "Singletons", "SaveManager.gd"]
def resourcePackLoaderPath : Path := ["Scripts", "Parts", "ResourcePackLoader.gd"]

def exportStep : Step :=
  ⟨exportPresetsPath, patch_export_presets_core, WriteCond.whenChanges, false,
   "Archivo no encontrado", none⟩

def globalStep : Step :=
  ⟨globalGdPath, patch_global_gd_core, WriteCond.whenChanges, false,
   "Archivo no encontrado", none⟩

def settingsStep : Step :=
  ⟨settingsManagerPath, patch_settings_manager_core, WriteCond.whenChanges, false,
   "Archivo no encontrado", none⟩

def modLoaderStep : Step :=
  ⟨modLoaderPathGd, patch_mod_loader_path_core, WriteCond.whenChanges, false,
   "Archivo no encontrado", none⟩

def saveStep : Step :=
  ⟨saveManagerPath, patch_save_manager_core, WriteCond.whenDiff, false,
   "Archivo no encontrado", none⟩

def resourceStep : Step :=
  ⟨resourcePackLoaderPath, patch_resource_pack_loader_core, WriteCond.whenDiff, true,
   "Archivo no encontrado (opcional)", none⟩

/-- The six fixed patches of `run`, in order. -/
def fixedSteps : List Step :=
  [exportStep, globalStep, settingsStep, modLoaderStep, saveStep, resourceStep]

def tscnStep (p : Path) : Step :=
  ⟨p, patch_tscn_core, WriteCond.whenChanges, false, "Archivo no encontrado",
   some tscnDetect⟩

structure RunOut where
  ok : Bool
  fs : FS
  results : List FileResult

/-- `AndroidStoragePatcher.run`: validate the project, run the six fixed
patches, then every matching `.tscn` file (enumerated once, after the fixed
patches); the post-patch verification is only reported, and the return value
is `all(r.success for r in self.results)`. -/
def runPatcher (ts : String) (dry : Bool) (fs : FS) : RunOut :=
  match readFS fs projectGodotPath with
  | none => ⟨false, fs, []⟩
  | some _ =>
    let st1 := fixedSteps.foldl (execStep ts dry) ⟨fs, []⟩
    let st2 := (tscnPaths st1.fs).foldl
        (fun s p => execStep ts dry s (tscnStep p)) st1
    ⟨st2.results.all (fun r => r.success), st2.fs, st2.results⟩

/-- `main` in apply mode: `sys.exit(0 if patcher.run() else 1)`. -/
def mainApplyExit (ts : String) (fs : FS) : Nat :=
  if (runPatcher ts false fs).ok then 0 else 1

/-! ## `RollbackManager` -/

/-- The backup directory a file belongs to: `backups/<x>/<more>` yields `x`. -/
def pathBackupName (p : Path) : Option String :=
  match p with
  | a :: x :: _ :: _ => if a = "backups" then some x else none
  | _ => none

/-- The names of the immediate subdirectories of `backups/` that contain at
least one file (`iterdir` + `is_dir`).  A directory is listed once per file
it contains; this repetition is invisible to `rollback`, which only uses
emptiness and the greatest element. -/
def backupDirNames (fs : FS) : List String :=
  fs.filterMap (fun e => pathBackupName e.1)

/-- Lexicographic comparison of texts by code point, as Python compares the
path strings that `sorted` orders. -/
def textLeB : Text → Text → Bool
  | [], _ => true
  | _ :: _, [] => false
  | a :: as, b :: bs =>
    if a.toNat < b.toNat then true
    else if b.toNat < a.toNat then false
    else textLeB as bs

def stringLeB (a b : String) : Bool := textLeB a.data b.data

/-- Insert into a descending-sorted list. -/
def insertDescending (x : String) : List String → List String
  | [] => [x]
  | y :: ys => if stringLeB y x then x :: y :: ys else y :: insertDescending x ys

def sortDescending (l : List String) : List String := l.foldr insertDescending []

/-- `RollbackManager.list_backups`: backup directories sorted latest first. -/
def list_backups (fs : FS) : List String := sortDescending (backupDirNames fs)

/-- Whether the backup directory named `d` exists (holds some file). -/
def backupDirHasFiles (fs : FS) (d : String) : Bool :=
  fs.any (fun e => pathBackupName e.1 == some d)

/-- The files under `backups/<d>/`, as enumerated by `rglob("*")`. -/
def backupFilesOf (fs : FS) (d : String) : List Path :=
  (keysFS fs).filter (fun p => pathBackupName p == some d)

/-- Copy one backed-up file over its relative path in the project tree
(`shutil.copy2(bf, project_root / rel)`), reading the current state. -/
def restoreFile (cur : FS) (p : Path) : FS :=
  match readFS cur p with
  | some c => setFS cur (p.drop 2) c
  | none => cur

/-- `RollbackManager.rollback`: without a name, restore the most recent
backup; with one, restore that directory; fail when there are no backups or
the directory does not exist.  The directory argument is modelled by its
name under `backups/`. -/
def rollback (fs : FS) (named : Option String) : Bool × FS :=
  match list_backups fs with
  | [] => (false, fs)
  | b0 :: _ =>
    let d := named.getD b0
    if !backupDirHasFiles fs d then (false, fs)
    else (true, (backupFilesOf fs d).foldl restoreFile fs)

/-! ## Well-formedness of a project tree -/

/-- `p` lies under this run's backup directory `backups/<ts>`. -/
def underBackupTs (ts : String) (p : Path) : Bool :=
  match p with
  | "backups" :: x :: _ => decide (x = ts)
  | _ => false

/-- No two files share a path. -/
def NodupKeys (fs : FS) : Prop := (keysFS fs).Nodup

/-- The current run's backup directory is fresh: no file lies under it. -/
def FreshBackups (ts : String) (fs : FS) : Prop :=
  ∀ e ∈ fs, underBackupTs ts e.1 = false

instance : DecidablePred (NodupKeys) := fun fs => by
  unfold NodupKeys; infer_instance

instance (ts : String) : DecidablePred (FreshBackups ts) := fun fs => by
  unfold FreshBackups; infer_instance

/-! ## Derived counting and staging functions (used to state properties) -/

/-- The number of matches a staged rule list records after the comment
filter, rule by rule over the progressively rewritten text. -/
def filteredMatchCount (cf : Bool) : List RuleD → Text → Nat
  | [], _ => 0
  | rd :: rds, t =>
    (subAndMatches rd.rule t).1.countP
        (fun m => !(cf && is_comment_line (lineAt t m.1)))
      + filteredMatchCount cf rds (subAndMatches rd.rule t).2

/-- The number of rules of a search-based rule list that find at least one
match in the progressively rewritten text. -/
def searchHitCount : List RuleD → Text → Nat
  | [], _ => 0
  | rd :: rds, t =>
    match subAndMatches rd.rule t with
    | ([], _) => searchHitCount rds t
    | (_ :: _, t') => 1 + searchHitCount rds t'

/-- The text each staged rule is actually applied to: the input as already
rewritten by the earlier rules of the list. -/
def stageInputs : List RuleD → Text → List (Text × RuleD)
  | [], _ => []
  | rd :: rds, t => (t, rd) :: stageInputs rds (subAndMatches rd.rule t).2

/-- The `FileResult`s one patch operation appends, as a function of the
content found at its target. -/
def stepResults (ts : String) (dry : Bool) (step : Step) (o : Option Text) :
    List FileResult :=
  match o with
  | none =>
    [{ filepath := step.target, success := step.optionalFile,
       error := some step.errMsg }]
  | some content =>
    if (match step.detect with | some d => !(d content) | none => false) then []
    else
      [{ filepath := step.target, success := true,
         changes := (step.core content).2,
         backup_path := some (if dry then dryBackupPath step.target
                              else backupPath ts step.target) }]

/-- The dry/apply-comparable projection of a result: target and changes. -/
def projRes (r : FileResult) : Path × List Change := (r.filepath, r.changes)

/-- Folding a list of patch operations. -/
def execSteps (ts : String) (dry : Bool) (st : PatcherSt) (steps : List Step) :
    PatcherSt :=
  steps.foldl (execStep ts dry) st

/-- `p` lies under `backups/` at all. -/
def underBackups (p : Path) : Bool :=
  match p with
  | "backups" :: _ => true
  | _ => false

/-- All five non-optional fixed targets are present. -/
def mandatoryPresentB (fs : FS) : Bool :=
  (readFS fs exportPresetsPath).isSome && (readFS fs globalGdPath).isSome &&
  (readFS fs settingsManagerPath).isSome && (readFS fs modLoaderPathGd).isSome &&
  (readFS fs saveManagerPath).isSome

/-- No backup directory contains a file whose project-relative path lies
under `backups/` again (no backups of backups). -/
def noNestedB (fs : FS) : Bool :=
  fs.all (fun e =>
    match e.1 with
    | "backups" :: _ :: rest => !underBackups rest
    | _ => true)

/-! ## Concrete example inputs used as evaluation witnesses -/

def ts0 : String := "20250101_000000"

/-- A small well-formed project tree: `project.godot`, the five mandatory
targets (`ResourcePackLoader.gd` absent), and one extra script with a live
`user://` reference that no patch target covers. -/
def demoProject : FS :=
  [(projectGodotPath, "config".data),
   (exportPresetsPath, "permissions/read_external_storage=false".data),
   (globalGdPath, "const ROM_PATH := \"user://baserom.nes\"".data),
   (settingsManagerPath, "x".data),
   (modLoaderPathGd, "x".data),
   (saveManagerPath, "var a := \"user://achievements.sav\"".data),
   (["Other.gd"], "var p = \"user://saves\"".data)]

/-- `demoProject` without `SaveManager.gd` (a missing mandatory target). -/
def demoProjectNoSave : FS :=
  [(projectGodotPath, "config".data),
   (exportPresetsPath, "permissions/read_external_storage=false".data),
   (globalGdPath, "const ROM_PATH := \"user://baserom.nes\"".data),
   (settingsManagerPath, "x".data),
   (modLoaderPathGd, "x".data),
   (["Other.gd"], "var p = \"user://saves\"".data)]

/-- A tree with one current file and two timestamped backups. -/
def demoBackups : FS :=
  [(["a.gd"], "new".data),
   (["backups", "20240101_000000", "a.gd"], "old1".data),
   (["backups", "20240202_000000", "a.gd"], "old2".data),
   (["backups", "20240202_000000", "sub", "b.txt"], "bee".data)]

/-- A tree in which every line containing a forbidden pattern is a comment
line: one `.tscn` and one `.gd` file. -/
def commentOnlyProject : FS :=
  [(["Menu.tscn"], "# \"user://saves/\"".data),
   (["A.gd"], ("# \"user://saves\"".data ++ '\n' :: "var x = 1".data))]

/-- A tree with one `.gd` file holding a live forbidden reference. -/
def gdHitProject : FS :=
  [(["A.gd"], "var x = \"user://saves\"".data)]

/-! ## Basic file-system lemmas -/

theorem readFS_setFS_self (fs : FS) (p : Path) (c : Text) :
    readFS (setFS fs p c) p = some c := by
  induction fs with
  | nil => simp [setFS, readFS]
  | cons e rest ih =>
    obtain ⟨q, d⟩ := e
    by_cases h : q = p
    · simp [setFS, h, readFS]
    · simp [setFS, h, readFS, ih]

theorem readFS_setFS_ne (fs : FS) {p q : Path} (c : Text) (h : q ≠ p) :
    readFS (setFS fs p c) q = readFS fs q := by
  induction fs with
  | nil => simp [setFS, readFS, Ne.symm h]
  | cons e rest ih =>
    obtain ⟨r, d⟩ := e
    by_cases hr : r = p
    · subst hr
      simp [setFS, readFS, Ne.symm h]
    · simp only [setFS, if_neg hr, readFS]
      by_cases hq : r = q <;> simp [hq, ih]

theorem mem_keysFS_of_readFS {fs : FS} {p : Path} {c : Text}
    (h : readFS fs p = some c) : p ∈ keysFS fs := by
  induction fs with
  | nil => simp [readFS] at h
  | cons e rest ih =>
    obtain ⟨q, d⟩ := e
    by_cases hq : q = p
    · simp [keysFS, hq]
    · simp only [readFS, if_neg hq] at h
      simp [keysFS] at ih ⊢
      exact Or.inr (ih h)

theorem readFS_isSome_iff {fs : FS} {p : Path} :
    (readFS fs p).isSome = true ↔ p ∈ keysFS fs := by
  induction fs with
  | nil => simp [readFS, keysFS]
  | cons e rest ih =>
    obtain ⟨q, d⟩ := e
    by_cases hq : q = p
    · simp [readFS, hq, keysFS]
    · simp [readFS, hq, keysFS, ih, Ne.symm hq]

theorem keysFS_setFS_of_mem {p : Path} (c : Text) :
    ∀ (fs : FS), p ∈ keysFS fs → keysFS (setFS fs p c) = keysFS fs := by
  intro fs
  induction fs with
  | nil => intro h; simp [keysFS] at h
  | cons e rest ih =>
    obtain ⟨q, d⟩ := e
    intro h
    by_cases hq : q = p
    · simp [setFS, hq, keysFS]
    · simp only [keysFS, List.map_cons, List.mem_cons] at h
      rcases h with h | h
      · exact absurd h.symm hq
      · simp only [setFS, if_neg hq, keysFS, List.map_cons]
        rw [show List.map Prod.fst (setFS rest p c) = keysFS (setFS rest p c) from rfl,
          ih h]
        rfl

theorem keysFS_setFS_of_not_mem {p : Path} (c : Text) :
    ∀ (fs : FS), p ∉ keysFS fs → keysFS (setFS fs p c) = keysFS fs ++ [p] := by
  intro fs
  induction fs with
  | nil => intro _; simp [setFS, keysFS]
  | cons e rest ih =>
    obtain ⟨q, d⟩ := e
    intro h
    simp only [keysFS, List.map_cons, List.mem_cons] at h
    push_neg at h
    simp only [setFS, if_neg (Ne.symm h.1), keysFS, List.map_cons]
    rw [show List.map Prod.fst (setFS rest p c) = keysFS (setFS rest p c) from rfl,
      ih h.2]
    rfl

theorem readFS_setFS_isSome {fs : FS} {q : Path} (p : Path) (c : Text)
    (h : (readFS fs q).isSome = true) :
    (readFS (setFS fs p c) q).isSome = true := by
  by_cases hq : q = p
  · subst hq; simp [readFS_setFS_self]
  · rwa [readFS_setFS_ne fs c hq]

theorem readFS_of_mem_nodup {p : Path} {c : Text} :
    ∀ {fs : FS}, (p, c) ∈ fs → NodupKeys fs → readFS fs p = some c := by
  intro fs
  induction fs with
  | nil => intro hm _; simp at hm
  | cons e rest ih =>
    obtain ⟨q, d⟩ := e
    intro hm hn
    simp only [NodupKeys, keysFS, List.map_cons, List.nodup_cons] at hn
    rcases List.mem_cons.mp hm with h | h
    · cases h
      simp [readFS]
    · have hq : q ≠ p := by
        intro hqp
        exact hn.1 (hqp ▸ (List.mem_map_of_mem Prod.fst h))
      simp only [readFS, if_neg hq]
      exact ih h hn.2

/-! ## Scanner lemmas -/

theorem scanFromF_fuel (r : Rule) :
    ∀ (f1 : Nat) (s : Text) (pos f2 : Nat), s.length ≤ f1 → s.length ≤ f2 →
      scanFromF r f1 s pos = scanFromF r f2 s pos := by
  intro f1
  induction f1 with
  | zero =>
    intro s pos f2 h1 _
    have hs : s = [] := List.length_eq_zero.mp (Nat.le_zero.mp h1)
    subst hs
    cases f2 <;> rfl
  | succ f ih =>
    intro s pos f2 h1 h2
    match s, f2 with
    | [], f2 => cases f2 <;> rfl
    | c :: rest, 0 => simp at h2
    | c :: rest, g + 1 =>
      simp only [List.length_cons] at h1 h2
      simp only [scanFromF]
      cases h : ruleMatchAt r (c :: rest) with
      | none => rw [ih rest (pos + 1) g (by omega) (by omega)]
      | some pr =>
        obtain ⟨len, rep⟩ := pr
        by_cases hz : len = 0
        · simp only [if_pos hz]
          rw [ih rest (pos + 1) g (by omega) (by omega)]
        · simp only [if_neg hz]
          rw [ih ((c :: rest).drop len) (pos + len) g
            (by simp only [List.length_drop, List.length_cons]; omega)
            (by simp only [List.length_drop, List.length_cons]; omega)]

theorem scanFrom_cons (r : Rule) (c : Char) (rest : Text) (pos : Nat) :
    scanFrom r (c :: rest) pos =
      match ruleMatchAt r (c :: rest) with
      | none =>
        ((scanFrom r rest (pos + 1)).1, c :: (scanFrom r rest (pos + 1)).2)
      | some (len, rep) =>
        if len = 0 then
          ((pos, len) :: (scanFrom r rest (pos + 1)).1,
           rep ++ c :: (scanFrom r rest (pos + 1)).2)
        else
          ((pos, len) :: (scanFrom r ((c :: rest).drop len) (pos + len)).1,
           rep ++ (scanFrom r ((c :: rest).drop len) (pos + len)).2) := by
  show scanFromF r (rest.length + 1) (c :: rest) pos = _
  simp only [scanFromF]
  cases h : ruleMatchAt r (c :: rest) with
  | none => rfl
  | some pr =>
    obtain ⟨len, rep⟩ := pr
    by_cases hz : len = 0
    · simp only [if_pos hz]
      rfl
    · simp only [if_neg hz]
      rw [scanFromF_fuel r rest.length ((c :: rest).drop len) (pos + len)
        ((c :: rest).drop len).length
        (by simp only [List.length_drop, List.length_cons]; omega) (le_refl _)]
      rfl

theorem scanFrom_no_match {r : Rule} :
    ∀ (s : Text) (pos : Nat),
      (∀ s' ∈ s.tails, ruleMatchAt r s' = none) → scanFrom r s pos = ([], s) := by
  intro s
  induction s with
  | nil => intro pos _; simp [scanFrom, scanFromF]
  | cons c rest ih =>
    intro pos h
    have h0 : ruleMatchAt r (c :: rest) = none := h (c :: rest) (by simp)
    have hrec := ih (pos + 1) (fun s' hs' =>
      h s' ((List.mem_tails _ _).mpr
        (((List.mem_tails _ _).mp hs').trans (List.suffix_cons c rest))))
    rw [scanFrom_cons]
    simp [h0, hrec]

theorem scanFrom_sound {r : Rule} :
    ∀ (n : Nat) (s : Text), s.length ≤ n → ∀ (pos q len : Nat),
      (q, len) ∈ (scanFrom r s pos).1 →
      pos ≤ q ∧ ∃ rep, ruleMatchAt r (s.drop (q - pos)) = some (len, rep) := by
  intro n
  induction n with
  | zero =>
    intro s hs pos q len hm
    interval_cases hl : s.length
    · rw [List.length_eq_zero.mp hl] at hm
      simp [scanFrom, scanFromF] at hm
  | succ n ih =>
    intro s hs pos q len hm
    match s with
    | [] => simp [scanFrom, scanFromF] at hm
    | c :: rest =>
      simp only [List.length_cons] at hs
      rw [scanFrom_cons] at hm
      cases h0 : ruleMatchAt r (c :: rest) with
      | none =>
        simp only [h0] at hm
        obtain ⟨hle, rep, hmm⟩ := ih rest (by omega) (pos + 1) q len hm
        refine ⟨by omega, rep, ?_⟩
        have hq : q - pos = (q - (pos + 1)) + 1 := by omega
        rw [hq, List.drop_succ_cons]
        exact hmm
      | some pr =>
        obtain ⟨len0, rep0⟩ := pr
        by_cases hz : len0 = 0
        · subst hz
          simp only [h0, if_pos, List.mem_cons, Prod.mk.injEq] at hm
          rcases hm with ⟨h1, h2⟩ | hm
          · subst h1; subst h2
            exact ⟨le_refl _, rep0, by simpa using h0⟩
          · obtain ⟨hle, rep, hmm⟩ := ih rest (by omega) (pos + 1) q len hm
            refine ⟨by omega, rep, ?_⟩
            have hq : q - pos = (q - (pos + 1)) + 1 := by omega
            rw [hq, List.drop_succ_cons]
            exact hmm
        · simp only [h0, if_neg hz, List.mem_cons, Prod.mk.injEq] at hm
          rcases hm with ⟨h1, h2⟩ | hm
          · subst h1; subst h2
            exact ⟨le_refl _, rep0, by simpa using h0⟩
          · obtain ⟨hle, rep, hmm⟩ :=
              ih ((c :: rest).drop len0)
                (by simp only [List.length_drop, List.length_cons]; omega)
                (pos + len0) q len hm
            refine ⟨by omega, rep, ?_⟩
            rw [List.drop_drop] at hmm
            have hq : len0 + (q - (pos + len0)) = q - pos := by omega
            rw [hq] at hmm
            exact hmm

/-! ## Rewrite-scheme lemmas -/

theorem applyAllMatches_acc (cf : Bool) (rules : List RuleD) :
    ∀ (t : Text) (cs : List Change),
      rules.foldl (fun acc rd =>
          ((applyStage cf acc.1 rd).1, acc.2 ++ (applyStage cf acc.1 rd).2)) (t, cs)
        = ((applyAllMatches cf rules t).1, cs ++ (applyAllMatches cf rules t).2) := by
  induction rules with
  | nil => intro t cs; simp [applyAllMatches]
  | cons rd rds ih =>
    intro t cs
    rcases h1 : applyStage cf t rd with ⟨t1, cs1⟩
    simp only [applyAllMatches, List.foldl_cons, h1, List.nil_append]
    rw [ih, ih]
    simp only [applyAllMatches, List.append_assoc]

theorem applyAllMatches_cons (cf : Bool) (rd : RuleD) (rds : List RuleD) (t : Text) :
    applyAllMatches cf (rd :: rds) t =
      ((applyAllMatches cf rds (applyStage cf t rd).1).1,
       (applyStage cf t rd).2 ++ (applyAllMatches cf rds (applyStage cf t rd).1).2) := by
  simp only [applyAllMatches, List.foldl_cons]
  rw [show (List.foldl (fun acc rd =>
      ((applyStage cf acc.1 rd).1, acc.2 ++ (applyStage cf acc.1 rd).2)) ((applyStage cf t rd).1, [] ++ (applyStage cf t rd).2) rds)
    = (List.foldl (fun acc rd =>
      ((applyStage cf acc.1 rd).1, acc.2 ++ (applyStage cf acc.1 rd).2)) ((applyStage cf t rd).1, (applyStage cf t rd).2) rds) by simp]
  rw [applyAllMatches_acc]
  simp [applyAllMatches]

theorem applySearch_acc (rules : List RuleD) :
    ∀ (t : Text) (cs : List Change),
      rules.foldl (fun acc rd =>
          match subAndMatches rd.rule acc.1 with
          | ([], _) => acc
          | (m :: _, t') =>
            (t', acc.2 ++ [{ line_number := lineNumAt acc.1 m.1, description := rd.desc }]))
        (t, cs)
      = ((applySearch rules t).1, cs ++ (applySearch rules t).2) := by
  induction rules with
  | nil => intro t cs; simp [applySearch]
  | cons rd rds ih =>
    intro t cs
    rcases hs : subAndMatches rd.rule t with ⟨ms, t'⟩
    cases ms with
    | nil =>
      simp only [applySearch, List.foldl_cons, hs]
      rw [ih, ih]
      simp
    | cons m mrest =>
      simp only [applySearch, List.foldl_cons, hs, List.nil_append]
      rw [ih, ih]
      simp only [List.append_assoc]

theorem mem_stageChanges {cf : Bool} {t : Text} {d : String}
    {ms : List (Nat × Nat)} {c : Change} (h : c ∈ stageChanges cf t d ms) :
    ∃ m ∈ ms, c = { line_number := lineNumAt t m.1, description := d } ∧
      (cf = true → is_comment_line (lineAt t m.1) = false) := by
  obtain ⟨m, hm, he⟩ := List.mem_filterMap.mp h
  refine ⟨m, hm, ?_⟩
  by_cases hcf : (cf && is_comment_line (lineAt t m.1)) = true
  · rw [if_pos hcf] at he; cases he
  · rw [if_neg hcf] at he
    obtain rfl := Option.some.injEq .. ▸ he
    refine ⟨rfl, fun hc => ?_⟩
    simp [hc] at hcf
    exact hcf

theorem length_stageChanges (cf : Bool) (t : Text) (d : String)
    (ms : List (Nat × Nat)) :
    (stageChanges cf t d ms).length =
      ms.countP (fun m => !(cf && is_comment_line (lineAt t m.1))) := by
  induction ms with
  | nil => simp [stageChanges]
  | cons m rest ih =>
    by_cases hc : (cf && is_comment_line (lineAt t m.1)) = true
    · obtain ⟨hcf, hcl⟩ := Bool.and_eq_true _ _ |>.mp hc
      have hstep : stageChanges cf t d (m :: rest) = stageChanges cf t d rest := by
        simp [stageChanges, List.filterMap_cons, hcf, hcl]
      rw [hstep, ih, List.countP_cons]
      simp [hc]
    · have hc' := hc
      rw [Bool.and_eq_true] at hc'
      have hstep : stageChanges cf t d (m :: rest) =
          { line_number := lineNumAt t m.1, description := d } :: stageChanges cf t d rest := by
        simp [stageChanges, List.filterMap_cons, hc']
      rw [hstep, List.length_cons, ih, List.countP_cons]
      simp [hc]

theorem subAndMatches_of_no_match {r : Rule} {t : Text}
    (h : hasMatchIn r t = false) : subAndMatches r t = ([], t) := by
  apply scanFrom_no_match
  intro s' hs'
  have h' := List.any_eq_false.mp h s' hs'
  exact Option.not_isSome_iff_eq_none.mp (by simp [h'])

theorem applySearch_cons (rd : RuleD) (rds : List RuleD) (t : Text) :
    applySearch (rd :: rds) t =
      match subAndMatches rd.rule t with
      | ([], _) => applySearch rds t
      | (m :: _, t') =>
        ((applySearch rds t').1,
         { line_number := lineNumAt t m.1, description := rd.desc } ::
           (applySearch rds t').2) := by
  rcases hs : subAndMatches rd.rule t with ⟨ms, t'⟩
  cases ms with
  | nil =>
    simp only [applySearch, List.foldl_cons, hs]
  | cons m mrest =>
    simp only [applySearch, List.foldl_cons, hs, List.nil_append]
    rw [applySearch_acc]
    simp [applySearch]

theorem applyAllMatches_of_no_match (cf : Bool) :
    ∀ (rules : List RuleD) (t : Text),
      (∀ rd ∈ rules, hasMatchIn rd.rule t = false) →
      applyAllMatches cf rules t = (t, []) := by
  intro rules
  induction rules with
  | nil => intro t _; rfl
  | cons rd rds ih =>
    intro t h
    have h0 : subAndMatches rd.rule t = ([], t) :=
      subAndMatches_of_no_match (h rd (List.mem_cons_self rd rds))
    have hstage : applyStage cf t rd = (t, []) := by
      simp [applyStage, h0, stageChanges]
    rw [applyAllMatches_cons, hstage]
    simp [ih t (fun rd' h' => h rd' (List.mem_cons_of_mem rd h'))]

theorem applyAllMatches_defaults {cf : Bool} :
    ∀ (rules : List RuleD) (t : Text) (c : Change),
      c ∈ (applyAllMatches cf rules t).2 →
      c.old_value = "" ∧ c.new_value = "" := by
  intro rules
  induction rules with
  | nil => intro t c hc; simp [applyAllMatches] at hc
  | cons rd rds ih =>
    intro t c hc
    rw [applyAllMatches_cons] at hc
    rcases List.mem_append.mp hc with hc | hc
    · obtain ⟨m, _, hceq, _⟩ := mem_stageChanges hc
      rw [hceq]
      exact ⟨rfl, rfl⟩
    · exact ih _ c hc

theorem applySearch_defaults :
    ∀ (rules : List RuleD) (t : Text) (c : Change),
      c ∈ (applySearch rules t).2 →
      c.old_value = "" ∧ c.new_value = "" := by
  intro rules
  induction rules with
  | nil => intro t c hc; simp [applySearch] at hc
  | cons rd rds ih =>
    intro t c hc
    rw [applySearch_cons] at hc
    rcases hs : subAndMatches rd.rule t with ⟨ms, t'⟩
    rw [hs] at hc
    cases ms with
    | nil => exact ih t c hc
    | cons m mrest =>
      rcases List.mem_cons.mp hc with hc | hc
      · rw [hc]; exact ⟨rfl, rfl⟩
      · exact ih t' c hc

theorem patch_export_presets_defaults (t : Text) (c : Change)
    (hc : c ∈ (patch_export_presets_core t).2) :
    c.old_value = "" ∧ c.new_value = "" := by
  simp only [patch_export_presets_core] at hc
  obtain ⟨l, hl, hcl⟩ := List.mem_flatten.mp hc
  obtain ⟨q, hq, hql⟩ := List.mem_map.mp hl
  obtain ⟨pr, hpr, hq2⟩ := List.mem_map.mp hq
  rw [← hql, ← hq2] at hcl
  cases hfind : presetNames.findSome? (fun n => presetTry pr.2 n) with
  | none => simp [presetLine, hfind] at hcl
  | some nlname =>
    obtain ⟨nl, name⟩ := nlname
    simp only [presetLine, hfind] at hcl
    rw [List.mem_singleton.mp hcl]
    exact ⟨rfl, rfl⟩

theorem applyAllMatches_length (cf : Bool) :
    ∀ (rules : List RuleD) (t : Text),
      (applyAllMatches cf rules t).2.length = filteredMatchCount cf rules t := by
  intro rules
  induction rules with
  | nil => intro t; simp [applyAllMatches, filteredMatchCount]
  | cons rd rds ih =>
    intro t
    rw [applyAllMatches_cons]
    show ((applyStage cf t rd).2 ++ _).length = _
    rw [List.length_append]
    show (stageChanges cf t rd.desc (subAndMatches rd.rule t).1).length + _ = _
    rw [length_stageChanges, filteredMatchCount]
    congr 1
    exact ih _

theorem applySearch_length :
    ∀ (rules : List RuleD) (t : Text),
      (applySearch rules t).2.length = searchHitCount rules t := by
  intro rules
  induction rules with
  | nil => intro t; simp [applySearch, searchHitCount]
  | cons rd rds ih =>
    intro t
    rw [applySearch_cons]
    rcases hs : subAndMatches rd.rule t with ⟨ms, t'⟩
    cases ms with
    | nil => simp only [searchHitCount, hs]; exact ih t
    | cons m mrest =>
      simp only [searchHitCount, hs, List.length_cons]
      rw [ih t']
      omega

theorem applyAllMatches_sound {cf : Bool} :
    ∀ (rules : List RuleD) (t : Text) (c : Change),
      c ∈ (applyAllMatches cf rules t).2 →
      ∃ u rd, (u, rd) ∈ stageInputs rules t ∧
        ∃ pos len rep, ruleMatchAt rd.rule (u.drop pos) = some (len, rep) ∧
          c.line_number = lineNumAt u pos ∧ c.description = rd.desc ∧
          (cf = true → is_comment_line (lineAt u pos) = false) := by
  intro rules
  induction rules with
  | nil => intro t c hc; simp [applyAllMatches] at hc
  | cons rd rds ih =>
    intro t c hc
    rw [applyAllMatches_cons] at hc
    rcases List.mem_append.mp hc with hc | hc
    · obtain ⟨m, hm, hceq, hcmt⟩ := mem_stageChanges hc
      obtain ⟨-, rep, hmm⟩ :=
        scanFrom_sound (r := rd.rule) t.length t (le_refl _) 0 m.1 m.2 hm
      refine ⟨t, rd, by simp [stageInputs], m.1, m.2, rep, ?_, ?_, ?_, ?_⟩
      · simpa using hmm
      · rw [hceq]
      · rw [hceq]
      · exact hcmt
    · obtain ⟨u, rd', hmem, rest⟩ := ih _ c hc
      refine ⟨u, rd', ?_, rest⟩
      rw [stageInputs]
      exact List.mem_cons_of_mem _ hmem

/-! ## Patch-step lemmas -/

theorem underBackupTs_backupPath (ts : String) (p : Path) :
    underBackupTs ts (backupPath ts p) = true := by
  simp [underBackupTs, backupPath]

theorem underBackups_backupPath (ts : String) (p : Path) :
    underBackups (backupPath ts p) = true := rfl

theorem backupPath_inj {ts : String} {p q : Path}
    (h : backupPath ts p = backupPath ts q) : p = q := by
  simpa [backupPath] using h

theorem execStep_results (ts : String) (dry : Bool) (st : PatcherSt) (step : Step) :
    (execStep ts dry st step).results =
      st.results ++ stepResults ts dry step (readFS st.fs step.target) := by
  cases h : readFS st.fs step.target with
  | none => simp [execStep, stepResults, h]
  | some content =>
    simp only [execStep, stepResults, h]
    by_cases hd : (match step.detect with | some d => !(d content) | none => false) = true
    · simp [hd]
    · simp [hd]

theorem execStep_dry_fs (ts : String) (st : PatcherSt) (step : Step) :
    (execStep ts true st step).fs = st.fs := by
  cases h : readFS st.fs step.target with
  | none => simp [execStep, h]
  | some content =>
    simp only [execStep, h]
    by_cases hd : (match step.detect with | some d => !(d content) | none => false) = true
    · simp [hd]
    · simp [hd]

theorem execStep_fs_pres (ts : String) (dry : Bool) (st : PatcherSt) (step : Step)
    {q : Path} (h1 : q ≠ step.target) (h2 : q ≠ backupPath ts step.target) :
    readFS (execStep ts dry st step).fs q = readFS st.fs q := by
  cases h : readFS st.fs step.target with
  | none => simp [execStep, h]
  | some content =>
    simp only [execStep, h]
    by_cases hd : (match step.detect with | some d => !(d content) | none => false) = true
    · simp [hd]
    · simp only [hd, if_neg, Bool.false_eq_true, not_false_eq_true]
      cases dry with
      | true => simp
      | false =>
        simp only [Bool.not_false, Bool.true_and, Bool.false_eq_true, if_false]
        by_cases hw : (match step.wcond with
            | WriteCond.whenChanges => !(step.core content).2.isEmpty
            | WriteCond.whenDiff => !decide ((step.core content).1 = content)) = true
        · simp only [hw, if_true, if_pos]
          rw [readFS_setFS_ne _ _ h1, readFS_setFS_ne _ _ h2]
        · simp only [hw, if_neg, Bool.false_eq_true, not_false_eq_true, if_false]
          rw [readFS_setFS_ne _ _ h2]

theorem execStep_isSome_mono (ts : String) (dry : Bool) (st : PatcherSt)
    (step : Step) {q : Path} (h : (readFS st.fs q).isSome = true) :
    (readFS (execStep ts dry st step).fs q).isSome = true := by
  cases hr : readFS st.fs step.target with
  | none => simpa [execStep, hr] using h
  | some content =>
    simp only [execStep, hr]
    by_cases hd : (match step.detect with | some d => !(d content) | none => false) = true
    · simpa [hd] using h
    · simp only [hd, Bool.false_eq_true, not_false_eq_true, if_neg]
      cases dry with
      | true => simpa using h
      | false =>
        simp only [Bool.not_false, Bool.true_and, Bool.false_eq_true, if_false]
        by_cases hw : (match step.wcond with
            | WriteCond.whenChanges => !(step.core content).2.isEmpty
            | WriteCond.whenDiff => !decide ((step.core content).1 = content)) = true
        · simp only [hw, if_true, if_pos]
          exact readFS_setFS_isSome _ _ (readFS_setFS_isSome _ _ h)
        · simp only [hw, Bool.false_eq_true, not_false_eq_true, if_neg, if_false]
          exact readFS_setFS_isSome _ _ h

theorem tscnPaths_setFS (fs : FS) (p : Path) (c : Text)
    (h : p ∈ keysFS fs ∨ tscnFile p = false) :
    tscnPaths (setFS fs p c) = tscnPaths fs := by
  by_cases hp : p ∈ keysFS fs
  · rw [tscnPaths, keysFS_setFS_of_mem c fs hp]
    rfl
  · rcases h with h | h
    · exact absurd h hp
    · rw [tscnPaths, keysFS_setFS_of_not_mem c fs hp, List.filter_append]
      simp [h, tscnPaths]

theorem tscnFile_backupPath (ts : String) {p : Path} (h : p ≠ []) :
    tscnFile (backupPath ts p) = tscnFile p := by
  match p with
  | [] => exact absurd rfl h
  | x :: xs =>
    simp [tscnFile, extIs, backupPath, List.getLast?_cons_cons]

theorem execStep_tscnPaths (ts : String) (dry : Bool) (st : PatcherSt) (step : Step)
    (h1 : tscnFile step.target = false) (h2 : step.target ≠ []) :
    tscnPaths (execStep ts dry st step).fs = tscnPaths st.fs := by
  cases hr : readFS st.fs step.target with
  | none => simp [execStep, hr]
  | some content =>
    have hmem : step.target ∈ keysFS st.fs := mem_keysFS_of_readFS hr
    simp only [execStep, hr]
    by_cases hd : (match step.detect with | some d => !(d content) | none => false) = true
    · simp [hd]
    · simp only [hd, Bool.false_eq_true, not_false_eq_true, if_neg]
      cases dry with
      | true => simp
      | false =>
        simp only [Bool.not_false, Bool.true_and, Bool.false_eq_true, if_false]
        have hb : tscnPaths (setFS st.fs (backupPath ts step.target) content)
            = tscnPaths st.fs := by
          apply tscnPaths_setFS
          right
          rw [tscnFile_backupPath ts h2]
          exact h1
        have hmem' : step.target ∈ keysFS (setFS st.fs (backupPath ts step.target) content) := by
          by_cases hbk : backupPath ts step.target ∈ keysFS st.fs
          · rwa [keysFS_setFS_of_mem _ _ hbk]
          · rw [keysFS_setFS_of_not_mem _ _ hbk]
            exact List.mem_append_left _ hmem
        by_cases hw : (match step.wcond with
            | WriteCond.whenChanges => !(step.core content).2.isEmpty
            | WriteCond.whenDiff => !decide ((step.core content).1 = content)) = true
        · simp only [hw, if_true, if_pos]
          rw [tscnPaths_setFS _ _ _ (Or.inl hmem'), hb]
        · simp only [hw, Bool.false_eq_true, not_false_eq_true, if_neg, if_false]
          exact hb

theorem stepResults_all_success (ts : String) (dry : Bool) (step : Step)
    (o : Option Text) :
    ((stepResults ts dry step o).all (fun r => r.success)) =
      (match o with | none => step.optionalFile | some _ => true) := by
  cases o with
  | none => simp [stepResults]
  | some content =>
    simp only [stepResults]
    by_cases hd : (match step.detect with | some d => !(d content) | none => false) = true
    · simp [hd]
    · simp [hd]

theorem stepResults_proj (ts : String) (step : Step) (o : Option Text) :
    (stepResults ts true step o).map projRes =
      (stepResults ts false step o).map projRes := by
  cases o with
  | none => simp [stepResults]
  | some content =>
    simp only [stepResults]
    by_cases hd : (match step.detect with | some d => !(d content) | none => false) = true
    · simp [hd]
    · simp [hd, projRes]

theorem execSteps_dry_fs (ts : String) :
    ∀ (steps : List Step) (st : PatcherSt),
      (execSteps ts true st steps).fs = st.fs := by
  intro steps
  induction steps with
  | nil => intro st; rfl
  | cons s ss ih =>
    intro st
    show (execSteps ts true (execStep ts true st s) ss).fs = st.fs
    rw [ih, execStep_dry_fs]

theorem execSteps_dry_results (ts : String) (fs : FS) :
    ∀ (steps : List Step) (st : PatcherSt), st.fs = fs →
      (execSteps ts true st steps).results =
        st.results ++ steps.flatMap
          (fun s => stepResults ts true s (readFS fs s.target)) := by
  intro steps
  induction steps with
  | nil => intro st _; simp [execSteps]
  | cons s ss ih =>
    intro st hfs
    show (execSteps ts true (execStep ts true st s) ss).results = _
    rw [ih (execStep ts true st s) (by rw [execStep_dry_fs]; exact hfs),
      execStep_results, hfs, List.flatMap_cons, List.append_assoc]

theorem execSteps_main (ts : String) (fs : FS) :
    ∀ (steps : List Step) (st : PatcherSt),
      (∀ s ∈ steps, readFS st.fs s.target = readFS fs s.target) →
      (∀ s ∈ steps, underBackupTs ts s.target = false) →
      steps.Pairwise (fun a b => a.target ≠ b.target) →
      ((execSteps ts false st steps).results =
          st.results ++ steps.flatMap
            (fun s => stepResults ts false s (readFS fs s.target)))
        ∧ (∀ q, underBackupTs ts q = false → (∀ s ∈ steps, q ≠ s.target) →
            readFS (execSteps ts false st steps).fs q = readFS st.fs q) := by
  intro steps
  induction steps with
  | nil => intro st _ _ _; exact ⟨by simp [execSteps], fun q _ _ => rfl⟩
  | cons s ss ih =>
    intro st hread hself hpair
    have hs0 : readFS st.fs s.target = readFS fs s.target :=
      hread s (List.mem_cons_self s ss)
    have hbtrue : underBackupTs ts (backupPath ts s.target) = true :=
      underBackupTs_backupPath ts s.target
    have hread' : ∀ s' ∈ ss, readFS (execStep ts false st s).fs s'.target
        = readFS fs s'.target := by
      intro s' hs'
      rw [execStep_fs_pres ts false st s
          (Ne.symm ((List.pairwise_cons.mp hpair).1 s' hs'))
          (fun he => by
            have := hself s' (List.mem_cons_of_mem s hs')
            rw [he, hbtrue] at this
            exact Bool.true_eq_false.mp this)]
      exact hread s' (List.mem_cons_of_mem s hs')
    obtain ⟨ihres, ihpres⟩ := ih (execStep ts false st s) hread'
      (fun s' hs' => hself s' (List.mem_cons_of_mem s hs'))
      (List.pairwise_cons.mp hpair).2
    constructor
    · show (execSteps ts false (execStep ts false st s) ss).results = _
      rw [ihres, execStep_results, hs0, List.flatMap_cons, List.append_assoc]
    · intro q hq hqs
      show readFS (execSteps ts false (execStep ts false st s) ss).fs q = _
      rw [ihpres q hq (fun s' hs' => hqs s' (List.mem_cons_of_mem s hs'))]
      exact execStep_fs_pres ts false st s (hqs s (List.mem_cons_self s ss))
        (fun he => by rw [he, hbtrue] at hq; exact Bool.true_eq_false.mp hq)

theorem execSteps_success_of_present (ts : String) (dry : Bool) :
    ∀ (steps : List Step) (st : PatcherSt),
      (∀ s ∈ steps, (readFS st.fs s.target).isSome = true) →
      (execSteps ts dry st steps).results.all (fun r => r.success) =
        st.results.all (fun r => r.success) := by
  intro steps
  induction steps with
  | nil => intro st _; rfl
  | cons s ss ih =>
    intro st hpres
    show (execSteps ts dry (execStep ts dry st s) ss).results.all _ = _
    rw [ih (execStep ts dry st s)
      (fun s' hs' => execStep_isSome_mono ts dry st s
        (hpres s' (List.mem_cons_of_mem s hs')))]
    rw [execStep_results, List.all_append]
    obtain ⟨content, hc⟩ := Option.isSome_iff_exists.mp (hpres s (List.mem_cons_self s ss))
    rw [hc, stepResults_all_success]
    simp

theorem execSteps_tscnPaths (ts : String) (dry : Bool) :
    ∀ (steps : List Step) (st : PatcherSt),
      (∀ s ∈ steps, tscnFile s.target = false ∧ s.target ≠ []) →
      tscnPaths (execSteps ts dry st steps).fs = tscnPaths st.fs := by
  intro steps
  induction steps with
  | nil => intro st _; rfl
  | cons s ss ih =>
    intro st h
    show tscnPaths (execSteps ts dry (execStep ts dry st s) ss).fs = _
    rw [ih _ (fun s' hs' => h s' (List.mem_cons_of_mem s hs'))]
    exact execStep_tscnPaths ts dry st s (h s (List.mem_cons_self s ss)).1
      (h s (List.mem_cons_self s ss)).2

/-! ## `run` characterization -/

theorem fixedSteps_pairwise :
    fixedSteps.Pairwise (fun a b => a.target ≠ b.target) := by
  have h : (fixedSteps.map (fun s => s.target)).Pairwise (· ≠ ·) := by decide
  exact List.pairwise_map.mp h

theorem fixedSteps_not_backup (ts : String) :
    ∀ s ∈ fixedSteps, underBackupTs ts s.target = false := by
  intro s hs
  fin_cases hs <;> rfl

theorem fixedSteps_not_tscn :
    ∀ s ∈ fixedSteps, tscnFile s.target = false ∧ s.target ≠ [] := by
  intro s hs
  fin_cases hs <;> exact ⟨by decide, by decide⟩

theorem runPatcher_eq (ts : String) (dry : Bool) (fs : FS) (c : Text)
    (h : readFS fs projectGodotPath = some c) :
    runPatcher ts dry fs =
      ⟨(execSteps ts dry (execSteps ts dry ⟨fs, []⟩ fixedSteps)
          ((tscnPaths (execSteps ts dry ⟨fs, []⟩ fixedSteps).fs).map tscnStep)).results.all
          (fun r => r.success),
       (execSteps ts dry (execSteps ts dry ⟨fs, []⟩ fixedSteps)
          ((tscnPaths (execSteps ts dry ⟨fs, []⟩ fixedSteps).fs).map tscnStep)).fs,
       (execSteps ts dry (execSteps ts dry ⟨fs, []⟩ fixedSteps)
          ((tscnPaths (execSteps ts dry ⟨fs, []⟩ fixedSteps).fs).map tscnStep)).results⟩ := by
  simp only [runPatcher, h, execSteps, List.foldl_map]

theorem all_success_flatMap (ts : String) (dry : Bool) (fs : FS) :
    ∀ (steps : List Step),
      ((steps.flatMap (fun s => stepResults ts dry s (readFS fs s.target))).all
          (fun r => r.success)) =
        steps.all (fun s =>
          match readFS fs s.target with
          | none => s.optionalFile
          | some _ => true) := by
  intro steps
  induction steps with
  | nil => rfl
  | cons s ss ih =>
    rw [List.flatMap_cons, List.all_append, stepResults_all_success, List.all_cons, ih]

theorem tscn_targets_present (st : PatcherSt) :
    ∀ s ∈ (tscnPaths st.fs).map tscnStep, (readFS st.fs s.target).isSome = true := by
  intro s hs
  obtain ⟨p, hp, hps⟩ := List.mem_map.mp hs
  rw [← hps]
  show (readFS st.fs p).isSome = true
  exact readFS_isSome_iff.mpr (List.mem_of_mem_filter hp)

theorem runPatcher_ok_char (ts : String) (dry : Bool) (fs : FS) :
    (runPatcher ts dry fs).ok =
      ((readFS fs projectGodotPath).isSome && mandatoryPresentB fs) := by
  cases hg : readFS fs projectGodotPath with
  | none => simp [runPatcher, hg]
  | some c =>
    rw [runPatcher_eq ts dry fs c hg]
    show (execSteps ts dry _ _).results.all _ = _
    rw [execSteps_success_of_present ts dry _ _ (tscn_targets_present _)]
    have hres : (execSteps ts dry ⟨fs, []⟩ fixedSteps).results =
        fixedSteps.flatMap (fun s => stepResults ts dry s (readFS fs s.target)) := by
      cases dry with
      | true => rw [execSteps_dry_results ts fs fixedSteps ⟨fs, []⟩ rfl]; rfl
      | false =>
        rw [(execSteps_main ts fs fixedSteps ⟨fs, []⟩ (fun _ _ => rfl)
          (fixedSteps_not_backup ts) fixedSteps_pairwise).1]
        rfl
    rw [hres, all_success_flatMap]
    simp only [fixedSteps, List.all_cons, List.all_nil]
    show ((match readFS fs exportPresetsPath with | none => false | some _ => true) &&
        ((match readFS fs globalGdPath with | none => false | some _ => true) &&
        ((match readFS fs settingsManagerPath with | none => false | some _ => true) &&
        ((match readFS fs modLoaderPathGd with | none => false | some _ => true) &&
        ((match readFS fs saveManagerPath with | none => false | some _ => true) &&
        ((match readFS fs resourcePackLoaderPath with | none => true | some _ => true) &&
          true)))))) = (true && mandatoryPresentB fs)
    have e1 : ∀ (o : Option Text),
        (match o with | none => false | some _ => true) = o.isSome := by
      intro o; cases o <;> rfl
    have e2 : ∀ (o : Option Text),
        (match o with | none => true | some _ => true) = true := by
      intro o; cases o <;> rfl
    rw [e1, e1, e1, e1, e1, e2, mandatoryPresentB]
    cases (readFS fs exportPresetsPath).isSome <;>
      cases (readFS fs globalGdPath).isSome <;>
      cases (readFS fs settingsManagerPath).isSome <;>
      cases (readFS fs modLoaderPathGd).isSome <;>
      cases (readFS fs saveManagerPath).isSome <;> rfl

/-! ## Dry-run / apply symmetry -/

theorem flatMap_proj (ts : String) (fs : FS) :
    ∀ (steps : List Step),
      (steps.flatMap (fun s => stepResults ts true s (readFS fs s.target))).map projRes =
        (steps.flatMap (fun s => stepResults ts false s (readFS fs s.target))).map projRes := by
  intro steps
  induction steps with
  | nil => rfl
  | cons s ss ih =>
    rw [List.flatMap_cons, List.flatMap_cons, List.map_append, List.map_append,
      stepResults_proj, ih]

theorem tscn_target_mem_keys {fs : FS} {p : Path} (hp : p ∈ tscnPaths fs) :
    p ∈ keysFS fs := List.mem_of_mem_filter hp

theorem tscn_target_not_backup {ts : String} {fs : FS} (h2 : FreshBackups ts fs)
    {p : Path} (hp : p ∈ tscnPaths fs) : underBackupTs ts p = false := by
  obtain ⟨e, he, hep⟩ := List.mem_map.mp (tscn_target_mem_keys hp)
  rw [← hep]
  exact h2 e he

theorem tscn_steps_pairwise {fs : FS} (h1 : NodupKeys fs) :
    ((tscnPaths fs).map tscnStep).Pairwise (fun a b => a.target ≠ b.target) := by
  apply List.pairwise_map.mpr
  have : (tscnPaths fs).Pairwise (· ≠ ·) := (List.Nodup.filter _ h1)
  exact this.imp (fun h => h)

theorem tscn_target_ne_fixed {fs : FS} {p : Path} (hp : p ∈ tscnPaths fs) :
    ∀ s' ∈ fixedSteps, p ≠ s'.target := by
  intro s' hs' he
  have htscn : tscnFile p = true := List.of_mem_filter hp
  have hfix := (fixedSteps_not_tscn s' hs').1
  rw [he, hfix] at htscn
  exact Bool.false_ne_true htscn

theorem runPatcher_dry_fs (ts : String) (fs : FS) :
    (runPatcher ts true fs).fs = fs := by
  cases hg : readFS fs projectGodotPath with
  | none => simp [runPatcher, hg]
  | some c =>
    rw [runPatcher_eq ts true fs c hg]
    show (execSteps ts true _ _).fs = fs
    rw [execSteps_dry_fs, execSteps_dry_fs]

theorem runPatcher_dry_apply_proj (ts : String) (fs : FS)
    (h1 : NodupKeys fs) (h2 : FreshBackups ts fs) :
    (runPatcher ts true fs).results.map projRes =
      (runPatcher ts false fs).results.map projRes := by
  cases hg : readFS fs projectGodotPath with
  | none => simp [runPatcher, hg]
  | some c =>
    rw [runPatcher_eq ts true fs c hg, runPatcher_eq ts false fs c hg]
    have hd1fs : (execSteps ts true ⟨fs, []⟩ fixedSteps).fs = fs :=
      execSteps_dry_fs ts fixedSteps ⟨fs, []⟩
    obtain ⟨ha1res, ha1pres⟩ := execSteps_main ts fs fixedSteps ⟨fs, []⟩
      (fun _ _ => rfl) (fixedSteps_not_backup ts) fixedSteps_pairwise
    have hpaths : tscnPaths (execSteps ts false ⟨fs, []⟩ fixedSteps).fs = tscnPaths fs := by
      have := execSteps_tscnPaths ts false fixedSteps ⟨fs, []⟩ fixedSteps_not_tscn
      exact this
    have hread2 : ∀ s ∈ (tscnPaths fs).map tscnStep,
        readFS (execSteps ts false ⟨fs, []⟩ fixedSteps).fs s.target
          = readFS fs s.target := by
      intro s hs
      obtain ⟨p, hp, hps⟩ := List.mem_map.mp hs
      have hpt : s.target = p := by rw [← hps]; rfl
      rw [hpt]
      exact ha1pres p (tscn_target_not_backup h2 hp)
        (fun s' hs' => tscn_target_ne_fixed hp s' hs')
    have hself2 : ∀ s ∈ (tscnPaths fs).map tscnStep,
        underBackupTs ts s.target = false := by
      intro s hs
      obtain ⟨p, hp, hps⟩ := List.mem_map.mp hs
      have hpt : s.target = p := by rw [← hps]; rfl
      rw [hpt]
      exact tscn_target_not_backup h2 hp
    obtain ⟨ha2res, _⟩ := execSteps_main ts fs ((tscnPaths fs).map tscnStep)
      (execSteps ts false ⟨fs, []⟩ fixedSteps) hread2 hself2 (tscn_steps_pairwise h1)
    have hd1res : (execSteps ts true ⟨fs, []⟩ fixedSteps).results =
        [] ++ fixedSteps.flatMap (fun s => stepResults ts true s (readFS fs s.target)) :=
      execSteps_dry_results ts fs fixedSteps ⟨fs, []⟩ rfl
    have hd2res := execSteps_dry_results ts fs
      ((tscnPaths (execSteps ts true ⟨fs, []⟩ fixedSteps).fs).map tscnStep)
      (execSteps ts true ⟨fs, []⟩ fixedSteps) hd1fs
    dsimp only
    rw [hpaths, hd1fs] at *
    rw [ha2res, ha1res, hd2res, hd1res]
    simp only [List.nil_append, List.map_append]
    rw [flatMap_proj, flatMap_proj]

/-! ## Backup-before-write invariant -/

theorem execStep_fs_none (ts : String) (dry : Bool) (st : PatcherSt) (step : Step)
    (h : readFS st.fs step.target = none) :
    (execStep ts dry st step).fs = st.fs := by
  simp [execStep, h]

theorem execStep_backup_self (ts : String) (st : PatcherSt) (step : Step)
    (hp : underBackups step.target = false) :
    readFS (execStep ts false st step).fs step.target = readFS st.fs step.target
    ∨ readFS (execStep ts false st step).fs (backupPath ts step.target)
        = readFS st.fs step.target := by
  have hne : step.target ≠ backupPath ts step.target := by
    intro he
    rw [he, underBackups_backupPath] at hp
    exact Bool.true_eq_false.mp hp
  cases hr : readFS st.fs step.target with
  | none => left; rw [execStep_fs_none ts false st step hr, hr]
  | some content =>
    simp only [execStep, hr]
    by_cases hd : (match step.detect with | some d => !(d content) | none => false) = true
    · left; simp [hd, hr]
    · simp only [hd, Bool.false_eq_true, not_false_eq_true, if_neg, Bool.not_false,
        Bool.true_and, if_false]
      by_cases hw : (match step.wcond with
          | WriteCond.whenChanges => !(step.core content).2.isEmpty
          | WriteCond.whenDiff => !decide ((step.core content).1 = content)) = true
      · right
        simp only [hw, if_true, if_pos]
        rw [readFS_setFS_ne _ _ (fun he => hne he.symm), readFS_setFS_self]
      · left
        simp only [hw, Bool.false_eq_true, not_false_eq_true, if_neg, if_false]
        rw [readFS_setFS_ne _ _ hne, hr]

theorem execSteps_backup (ts : String) (fs : FS) :
    ∀ (steps : List Step) (st : PatcherSt),
      (∀ s ∈ steps, readFS st.fs s.target = readFS fs s.target) →
      (∀ s ∈ steps, underBackupTs ts s.target = false) →
      steps.Pairwise (fun a b => a.target ≠ b.target) →
      (∀ p, underBackups p = false → readFS st.fs p ≠ readFS fs p →
        readFS st.fs (backupPath ts p) = readFS fs p) →
      (∀ p, underBackups p = false →
        readFS (execSteps ts false st steps).fs p ≠ readFS fs p →
        readFS (execSteps ts false st steps).fs (backupPath ts p) = readFS fs p) := by
  intro steps
  induction steps with
  | nil => intro st _ _ _ hinv; exact hinv
  | cons s ss ih =>
    intro st hread hself hpair hinv
    have hs0 : readFS st.fs s.target = readFS fs s.target :=
      hread s (List.mem_cons_self s ss)
    have hsb : underBackupTs ts s.target = false := hself s (List.mem_cons_self s ss)
    have hbtrue : underBackupTs ts (backupPath ts s.target) = true :=
      underBackupTs_backupPath ts s.target
    have hread' : ∀ s' ∈ ss, readFS (execStep ts false st s).fs s'.target
        = readFS fs s'.target := by
      intro s' hs'
      rw [execStep_fs_pres ts false st s
          (Ne.symm ((List.pairwise_cons.mp hpair).1 s' hs'))
          (fun he => by
            have := hself s' (List.mem_cons_of_mem s hs')
            rw [he, hbtrue] at this
            exact Bool.true_eq_false.mp this)]
      exact hread s' (List.mem_cons_of_mem s hs')
    have hinv' : ∀ p, underBackups p = false →
        readFS (execStep ts false st s).fs p ≠ readFS fs p →
        readFS (execStep ts false st s).fs (backupPath ts p) = readFS fs p := by
      intro p hp hch
      by_cases hpt : p = s.target
      · subst hpt
        rcases execStep_backup_self ts st s hp with hL | hR
        · rw [hL, hs0] at hch
          exact absurd rfl hch
        · rw [hR, hs0]
      · have hpb : p ≠ backupPath ts s.target := by
          intro he
          rw [he, underBackups_backupPath] at hp
          exact Bool.true_eq_false.mp hp
        rw [execStep_fs_pres ts false st s hpt hpb] at hch
        have hold := hinv p hp hch
        rw [execStep_fs_pres ts false st s
          (fun he => by
            rw [← he, underBackupTs_backupPath] at hsb
            exact Bool.true_eq_false.mp hsb)
          (fun he => hpt (backupPath_inj he))]
        exact hold
    exact ih (execStep ts false st s) hread'
      (fun s' hs' => hself s' (List.mem_cons_of_mem s hs'))
      (List.pairwise_cons.mp hpair).2 hinv'

theorem runPatcher_backup (ts : String) (fs : FS)
    (h1 : NodupKeys fs) (h2 : FreshBackups ts fs) (p : Path)
    (hp : underBackups p = false)
    (hch : readFS (runPatcher ts false fs).fs p ≠ readFS fs p) :
    readFS (runPatcher ts false fs).fs (backupPath ts p) = readFS fs p := by
  cases hg : readFS fs projectGodotPath with
  | none => simp [runPatcher, hg] at hch
  | some c =>
    rw [runPatcher_eq ts false fs c hg] at hch ⊢
    dsimp only at hch ⊢
    obtain ⟨-, ha1pres⟩ := execSteps_main ts fs fixedSteps ⟨fs, []⟩
      (fun _ _ => rfl) (fixedSteps_not_backup ts) fixedSteps_pairwise
    have hpaths : tscnPaths (execSteps ts false ⟨fs, []⟩ fixedSteps).fs = tscnPaths fs :=
      execSteps_tscnPaths ts false fixedSteps ⟨fs, []⟩ fixedSteps_not_tscn
    rw [hpaths] at hch ⊢
    have hread2 : ∀ s ∈ (tscnPaths fs).map tscnStep,
        readFS (execSteps ts false ⟨fs, []⟩ fixedSteps).fs s.target
          = readFS fs s.target := by
      intro s hs
      obtain ⟨q, hq, hqs⟩ := List.mem_map.mp hs
      have hqt : s.target = q := by rw [← hqs]; rfl
      rw [hqt]
      exact ha1pres q (tscn_target_not_backup h2 hq)
        (fun s' hs' => tscn_target_ne_fixed hq s' hs')
    have hself2 : ∀ s ∈ (tscnPaths fs).map tscnStep,
        underBackupTs ts s.target = false := by
      intro s hs
      obtain ⟨q, hq, hqs⟩ := List.mem_map.mp hs
      have hqt : s.target = q := by rw [← hqs]; rfl
      rw [hqt]
      exact tscn_target_not_backup h2 hq
    have hB1 : ∀ q, underBackups q = false →
        readFS (execSteps ts false ⟨fs, []⟩ fixedSteps).fs q ≠ readFS fs q →
        readFS (execSteps ts false ⟨fs, []⟩ fixedSteps).fs (backupPath ts q)
          = readFS fs q :=
      execSteps_backup ts fs fixedSteps ⟨fs, []⟩ (fun _ _ => rfl)
        (fixedSteps_not_backup ts) fixedSteps_pairwise
        (fun q _ hc => absurd rfl hc)
    exact execSteps_backup ts fs ((tscnPaths fs).map tscnStep)
      (execSteps ts false ⟨fs, []⟩ fixedSteps) hread2 hself2
      (tscn_steps_pairwise h1) hB1 p hp hch

/-! ## Rollback lemmas -/

theorem textLeB_refl : ∀ (a : Text), textLeB a a = true := by
  intro a
  induction a with
  | nil => rfl
  | cons c cs ih => simp [textLeB, ih]

theorem textLeB_trans :
    ∀ (a b c : Text), textLeB a b = true → textLeB b c = true →
      textLeB a c = true := by
  intro a
  induction a with
  | nil => intro b c _ _; rfl
  | cons x xs ih =>
    intro b c hab hbc
    match b, c with
    | [], _ => simp [textLeB] at hab
    | _ :: _, [] => simp [textLeB] at hbc
    | y :: ys, z :: zs =>
      simp only [textLeB] at hab hbc ⊢
      rcases Nat.lt_trichotomy x.toNat y.toNat with h1 | h1 | h1
      · rcases Nat.lt_trichotomy y.toNat z.toNat with h3 | h3 | h3
        · simp [show x.toNat < z.toNat from by omega]
        · simp [show x.toNat < z.toNat from by omega]
        · rw [if_neg (show ¬ y.toNat < z.toNat from by omega), if_pos h3] at hbc
          cases hbc
      · rcases Nat.lt_trichotomy y.toNat z.toNat with h3 | h3 | h3
        · simp [show x.toNat < z.toNat from by omega]
        · rw [if_neg (show ¬ x.toNat < y.toNat from by omega),
            if_neg (show ¬ y.toNat < x.toNat from by omega)] at hab
          rw [if_neg (show ¬ y.toNat < z.toNat from by omega),
            if_neg (show ¬ z.toNat < y.toNat from by omega)] at hbc
          rw [if_neg (show ¬ x.toNat < z.toNat from by omega),
            if_neg (show ¬ z.toNat < x.toNat from by omega)]
          exact ih ys zs hab hbc
        · rw [if_neg (show ¬ y.toNat < z.toNat from by omega), if_pos h3] at hbc
          cases hbc
      · rw [if_neg (show ¬ x.toNat < y.toNat from by omega), if_pos h1] at hab
        cases hab

theorem textLeB_of_not :
    ∀ (a b : Text), textLeB a b = false → textLeB b a = true := by
  intro a
  induction a with
  | nil => intro b hb; simp [textLeB] at hb
  | cons x xs ih =>
    intro b hb
    match b with
    | [] => rfl
    | y :: ys =>
      simp only [textLeB] at hb ⊢
      rcases Nat.lt_trichotomy x.toNat y.toNat with h1 | h1 | h1
      · rw [if_pos h1] at hb
        cases hb
      · rw [if_neg (show ¬ x.toNat < y.toNat from by omega),
          if_neg (show ¬ y.toNat < x.toNat from by omega)] at hb
        rw [if_neg (show ¬ y.toNat < x.toNat from by omega),
          if_neg (show ¬ x.toNat < y.toNat from by omega)]
        exact ih ys hb
      · simp [h1]

theorem mem_insertDescending (x : String) :
    ∀ (l : List String) (y : String),
      y ∈ insertDescending x l ↔ y = x ∨ y ∈ l := by
  intro l
  induction l with
  | nil => intro y; simp [insertDescending]
  | cons z zs ih =>
    intro y
    by_cases h : stringLeB z x = true
    · simp [insertDescending, h]
    · simp only [insertDescending, if_neg h, List.mem_cons, ih]
      tauto

theorem insertDescending_pairwise (x : String) :
    ∀ (l : List String), l.Pairwise (fun a b => stringLeB b a = true) →
      (insertDescending x l).Pairwise (fun a b => stringLeB b a = true) := by
  intro l
  induction l with
  | nil => intro _; simp [insertDescending]
  | cons z zs ih =>
    intro hp
    obtain ⟨hz, hzs⟩ := List.pairwise_cons.mp hp
    by_cases h : stringLeB z x = true
    · simp only [insertDescending, if_pos h]
      refine List.Pairwise.cons ?_ hp
      intro y hy
      rcases List.mem_cons.mp hy with rfl | hy
      · exact h
      · exact textLeB_trans _ _ _ (hz y hy) h
    · simp only [insertDescending, if_neg h]
      refine List.Pairwise.cons ?_ (ih hzs)
      intro y hy
      rcases (mem_insertDescending x zs y).mp hy with rfl | hy
      · exact textLeB_of_not _ _ (Bool.not_eq_true _ ▸ h)
      · exact hz y hy

theorem sortDescending_pairwise :
    ∀ (l : List String),
      (sortDescending l).Pairwise (fun a b => stringLeB b a = true) := by
  intro l
  induction l with
  | nil => simp [sortDescending]
  | cons x xs ih => exact insertDescending_pairwise x _ ih

theorem mem_sortDescending :
    ∀ (l : List String) (y : String), y ∈ sortDescending l ↔ y ∈ l := by
  intro l
  induction l with
  | nil => intro y; simp [sortDescending]
  | cons x xs ih =>
    intro y
    show y ∈ insertDescending x (sortDescending xs) ↔ _
    rw [mem_insertDescending, ih]
    simp

theorem sortDescending_head_max {l : List String} {b0 : String} {rest : List String}
    (h : sortDescending l = b0 :: rest) : ∀ x ∈ l, stringLeB x b0 = true := by
  intro x hx
  have hmem := (mem_sortDescending l x).mpr hx
  rw [h] at hmem
  rcases List.mem_cons.mp hmem with rfl | hmem
  · exact textLeB_refl _
  · have hp := sortDescending_pairwise l
    rw [h] at hp
    exact (List.pairwise_cons.mp hp).1 x hmem

theorem backupDirHasFiles_of_mem {fs : FS} {d : String}
    (h : d ∈ backupDirNames fs) : backupDirHasFiles fs d = true := by
  obtain ⟨e, he, hed⟩ := List.mem_filterMap.mp h
  rw [backupDirHasFiles, List.any_eq_true]
  exact ⟨e, he, by simp [hed]⟩

theorem list_backups_empty_iff {fs : FS} :
    list_backups fs = [] ↔ backupDirNames fs = [] := by
  constructor
  · intro h
    cases hb : backupDirNames fs with
    | nil => rfl
    | cons x xs =>
      have : x ∈ list_backups fs :=
        (mem_sortDescending _ x).mpr (by rw [hb]; exact List.mem_cons_self x xs)
      rw [h] at this
      cases this
  · intro h
    rw [list_backups, h]
    rfl

/-- Restoring copies only to non-backup paths, so reads under `backups/` are
never disturbed. -/
theorem restoreFile_pres_backups (cur : FS) (p : Path) {q : Path}
    (hq : underBackups q = true) (hp : underBackups (p.drop 2) = false) :
    readFS (restoreFile cur p) q = readFS cur q := by
  rw [restoreFile]
  cases h : readFS cur p with
  | none => rfl
  | some c =>
    exact readFS_setFS_ne cur c (fun he => by rw [he, hp] at hq; cases hq)

theorem restore_fold_props (fs0 : FS) :
    ∀ (ps : List Path) (cur : FS),
      (∀ p ∈ ps, underBackups p = true ∧ underBackups (p.drop 2) = false ∧
        (readFS fs0 p).isSome = true) →
      (∀ q, underBackups q = true → readFS cur q = readFS fs0 q) →
      ps.Pairwise (fun a b => a.drop 2 ≠ b.drop 2) →
      (∀ q, underBackups q = true →
         readFS (ps.foldl restoreFile cur) q = readFS fs0 q) ∧
      (∀ p ∈ ps, readFS (ps.foldl restoreFile cur) (p.drop 2) = readFS fs0 p) := by
  intro ps
  induction ps with
  | nil => intro cur _ hagree _; exact ⟨hagree, by simp⟩
  | cons p ps ih =>
    intro cur hps hagree hpair
    obtain ⟨hpb, hpd, hpsome⟩ := hps p (List.mem_cons_self p ps)
    obtain ⟨c, hc⟩ := Option.isSome_iff_exists.mp hpsome
    have hcur : readFS cur p = some c := by rw [hagree p hpb, hc]
    have hstep : restoreFile cur p = setFS cur (p.drop 2) c := by
      rw [restoreFile, hcur]
    have hagree' : ∀ q, underBackups q = true →
        readFS (restoreFile cur p) q = readFS fs0 q := by
      intro q hq
      rw [restoreFile_pres_backups cur p hq hpd]
      exact hagree q hq
    obtain ⟨hrec1, hrec2⟩ := ih (restoreFile cur p)
      (fun p' hp' => hps p' (List.mem_cons_of_mem p hp'))
      hagree' (List.pairwise_cons.mp hpair).2
    refine ⟨hrec1, ?_⟩
    intro p' hp'
    rcases List.mem_cons.mp hp' with rfl | hp'
    · show readFS (List.foldl restoreFile (restoreFile cur p') ps) (p'.drop 2) = _
      have hpres : ∀ (qs : List Path) (st : FS),
          (∀ q ∈ qs, p'.drop 2 ≠ q.drop 2) →
          readFS (qs.foldl restoreFile st) (p'.drop 2) = readFS st (p'.drop 2) := by
        intro qs
        induction qs with
        | nil => intro st _; rfl
        | cons q qs ihq =>
          intro st hne
          show readFS (qs.foldl restoreFile (restoreFile st q)) _ = _
          rw [ihq (restoreFile st q) (fun q' hq' => hne q' (List.mem_cons_of_mem q hq'))]
          rw [restoreFile]
          cases hrq : readFS st q with
          | none => rfl
          | some cq =>
            exact readFS_setFS_ne st cq (hne q (List.mem_cons_self q qs))
      rw [hpres ps (restoreFile cur p') (List.pairwise_cons.mp hpair).1,
        hstep, readFS_setFS_self, hc]
    · exact hrec2 p' hp'

theorem pathBackupName_eq_some {p : Path} {d : String}
    (h : pathBackupName p = some d) :
    ∃ rest, rest ≠ [] ∧ p = "backups" :: d :: rest := by
  match p with
  | [] => simp [pathBackupName] at h
  | [a] => simp [pathBackupName] at h
  | [a, b] => simp [pathBackupName] at h
  | a :: x :: y :: more =>
    by_cases ha : a = "backups"
    · simp only [pathBackupName, if_pos ha] at h
      obtain rfl := Option.some.inj h
      exact ⟨y :: more, by simp, by rw [ha]⟩
    · simp [pathBackupName, ha] at h

theorem rollback_none_false_iff (fs : FS) :
    (rollback fs none).1 = false ↔ list_backups fs = [] := by
  cases hb : list_backups fs with
  | nil => simp [rollback, hb]
  | cons b0 rest =>
    have hmem : b0 ∈ backupDirNames fs := by
      have := (mem_sortDescending (backupDirNames fs) b0).mp
      rw [show sortDescending (backupDirNames fs) = list_backups fs from rfl, hb] at this
      exact this (List.mem_cons_self b0 rest)
    simp [rollback, hb, backupDirHasFiles_of_mem hmem]

theorem rollback_some_false_iff (fs : FS) (d : String) :
    (rollback fs (some d)).1 = false ↔
      (list_backups fs = [] ∨ backupDirHasFiles fs d = false) := by
  cases hb : list_backups fs with
  | nil => simp [rollback, hb]
  | cons b0 rest =>
    by_cases hd : backupDirHasFiles fs d = true
    · simp [rollback, hb, hd]
    · simp only [Bool.not_eq_true] at hd
      simp [rollback, hb, hd]

theorem backupFilesOf_props (fs : FS) (d : String)
    (h1 : NodupKeys fs) (hnn : noNestedB fs = true) :
    (∀ p ∈ backupFilesOf fs d, underBackups p = true ∧
        underBackups (p.drop 2) = false ∧ (readFS fs p).isSome = true) ∧
      (backupFilesOf fs d).Pairwise (fun a b => a.drop 2 ≠ b.drop 2) := by
  constructor
  · intro p hp
    have hmem : p ∈ keysFS fs := List.mem_of_mem_filter hp
    have hpd : pathBackupName p = some d := by
      have := List.of_mem_filter hp
      simpa using this
    obtain ⟨rest, hrne, rfl⟩ := pathBackupName_eq_some hpd
    refine ⟨rfl, ?_, readFS_isSome_iff.mpr hmem⟩
    obtain ⟨e, he, hep⟩ := List.mem_map.mp hmem
    have hall := List.all_eq_true.mp hnn e he
    rw [hep] at hall
    simp only [List.drop_succ_cons, List.drop_zero]
    simpa using hall
  · have hnd : (backupFilesOf fs d).Pairwise (· ≠ ·) := (h1.filter _)
    apply hnd.imp_of_mem
    intro a b ha hb hne hdrop
    have hpa : pathBackupName a = some d := by simpa using List.of_mem_filter ha
    have hpb : pathBackupName b = some d := by simpa using List.of_mem_filter hb
    obtain ⟨ra, -, rfl⟩ := pathBackupName_eq_some hpa
    obtain ⟨rb, -, rfl⟩ := pathBackupName_eq_some hpb
    simp only [List.drop_succ_cons, List.drop_zero] at hdrop
    exact hne (by rw [hdrop])

theorem restoredFS_reads (fs : FS) (d : String)
    (h1 : NodupKeys fs) (hnn : noNestedB fs = true) :
    ∀ p c, (p, c) ∈ fs → pathBackupName p = some d →
      readFS ((backupFilesOf fs d).foldl restoreFile fs) (p.drop 2) = some c := by
  intro p c hpc hpd
  obtain ⟨hps, hpair⟩ := backupFilesOf_props fs d h1 hnn
  obtain ⟨-, hreads⟩ := restore_fold_props fs (backupFilesOf fs d) fs hps
    (fun _ _ => rfl) hpair
  have hp : p ∈ backupFilesOf fs d := by
    rw [backupFilesOf, List.mem_filter]
    refine ⟨List.mem_map_of_mem Prod.fst hpc, by simp [hpd]⟩
  rw [hreads p hp, readFS_of_mem_nodup hpc h1]

/-! ## Verification lemmas -/

theorem verify_gd_entry {fs : FS} {p : Path} {i : Nat}
    (h : (p, some i) ∈ (verify_patches fs).2) :
    ∃ c, (p, c) ∈ fs ∧ gdFile p = true ∧ ∃ l,
      (splitNl c)[i - 1]? = some l ∧ is_comment_line l = false ∧
      textHasForbidden l = true := by
  simp only [verify_patches] at h
  rcases List.mem_append.mp h with h | h
  · obtain ⟨ls, hls, hmem⟩ := List.mem_flatten.mp h
    obtain ⟨e, he, heq⟩ := List.mem_map.mp hls
    rw [← heq] at hmem
    obtain ⟨pr, hpr, hprE⟩ := List.mem_filterMap.mp hmem
    obtain ⟨j, l⟩ := pr
    by_cases hcond : (!is_comment_line l && textHasForbidden l) = true
    · rw [if_pos hcond] at hprE
      have hpair := Option.some.inj hprE
      rw [Prod.mk.injEq] at hpair
      obtain ⟨he1, he2⟩ := hpair
      obtain rfl := Option.some.inj he2
      obtain ⟨hb1, hb2⟩ := Bool.and_eq_true _ _ |>.mp hcond
      refine ⟨e.2, ?_, ?_, l, ?_, ?_, hb2⟩
      · have hmemfs := List.mem_of_mem_filter he
        have hee : e = (p, e.2) := by rw [← he1]
        rwa [hee] at hmemfs
      · have hgd := List.of_mem_filter he
        rw [← he1]
        simpa using hgd
      · have := List.mk_mem_enumFrom_iff_le_and_getElem?_sub.mp hpr
        exact this.2
      · simpa using hb1
    · rw [if_neg hcond] at hprE
      cases hprE
  · obtain ⟨e, he, heq⟩ := List.mem_filterMap.mp h
    by_cases hcond : textHasForbidden e.2 = true
    · rw [if_pos hcond] at heq
      have hpair := Option.some.inj heq
      rw [Prod.mk.injEq] at hpair
      cases hpair.2
    · rw [if_neg hcond] at heq
      cases heq

/-! ## Claim theorems -/

/-- C1, counterexample: a project tree on which every patch operation
succeeds (so `run` returns `True` and the process exits 0) while the
post-patch verification scan still finds residual forbidden `user://`
matches; the exit status ignores the verification result. -/
theorem C1_counterexample :
    (runPatcher ts0 false demoProject).ok = true ∧
    mainApplyExit ts0 demoProject = 0 ∧
    (verify_patches (runPatcher ts0 false demoProject).fs).2 ≠ [] := by
  refine ⟨by decide, ?_, by decide⟩
  rw [mainApplyExit]
  simp only [show (runPatcher ts0 false demoProject).ok = true from by decide]
  rfl

/-- C1, amended: in apply mode the process exits 0 exactly when
`project.godot` and the five non-optional fixed targets all exist; every
patch operation reports success whenever its file can be read, and the
post-patch verification scan never influences the exit status. -/
theorem C1_exit_status (ts : String) (fs : FS) :
    (mainApplyExit ts fs = 0) ↔
      ((readFS fs projectGodotPath).isSome && mandatoryPresentB fs) = true := by
  rw [mainApplyExit]
  by_cases h : (runPatcher ts false fs).ok = true
  · simp only [h, if_true]
    rw [← runPatcher_ok_char ts false fs]
    simp [h]
  · simp only [Bool.not_eq_true] at h
    simp only [h, Bool.false_eq_true, if_false]
    rw [← runPatcher_ok_char ts false fs]
    simp [h]

/-- C2, counterexample: a rewrite that records a change whose `old_value`
is the empty string rather than the matched text
`"user://achievements.sav"` (and whose `new_value` is likewise empty). -/
theorem C2_counterexample :
    (patch_save_manager_core "x := \"user://achievements.sav\"".data).2 =
      [{ line_number := 1, description := "achievements.sav actualizado",
         old_value := "", new_value := "" }] ∧
    ("" : String) ≠ "\"user://achievements.sav\"" := by
  exact ⟨by decide, by decide⟩

/-- C2, amended: every `Change` any rewrite operation records carries the
line number and a label-derived description, while its `old_value` and
`new_value` fields always keep their empty-string defaults (no code path
ever sets them). -/
theorem C2_change_fields :
    (∀ (cf : Bool) (rules : List RuleD) (t : Text) (c : Change),
        c ∈ (applyAllMatches cf rules t).2 →
        c.old_value = "" ∧ c.new_value = "") ∧
    (∀ (rules : List RuleD) (t : Text) (c : Change),
        c ∈ (applySearch rules t).2 →
        c.old_value = "" ∧ c.new_value = "") ∧
    (∀ (t : Text) (c : Change),
        c ∈ (patch_export_presets_core t).2 →
        c.old_value = "" ∧ c.new_value = "") := by
  exact ⟨fun cf rules t c hc => applyAllMatches_defaults rules t c hc,
    fun rules t c hc => applySearch_defaults rules t c hc,
    fun t c hc => patch_export_presets_defaults t c hc⟩

/-- C2, witness: the amended claim applied to a concrete rewrite. -/
theorem C2_witness :
    (⟨1, "achievements.sav actualizado", "", ""⟩ : Change) ∈
        (applyAllMatches true saveManagerRules
          "x := \"user://achievements.sav\"".data).2 ∧
    ((⟨1, "achievements.sav actualizado", "", ""⟩ : Change).old_value = "" ∧
     (⟨1, "achievements.sav actualizado", "", ""⟩ : Change).new_value = "") :=
  ⟨by decide,
   C2_change_fields.1 true saveManagerRules "x := \"user://achievements.sav\"".data
     ⟨1, "achievements.sav actualizado", "", ""⟩ (by decide)⟩

/-- C3, counterexample: in `patch_save_manager`, the rule
`"user://saves"(?!/)` matches once in the text `#"user://saves"`, and the
occurrence is rewritten, yet zero `Change` records are appended because the
match lies on a comment line. -/
theorem C3_counterexample :
    (subAndMatches (litRuleNoSlash "\"user://saves\"" (extQuoted "/saves"))
        "#\"user://saves\"".data).1.length = 1 ∧
    (patch_save_manager_core "#\"user://saves\"".data).1 ≠
      "#\"user://saves\"".data ∧
    (patch_save_manager_core "#\"user://saves\"".data).2 = [] := by
  exact ⟨by decide, by decide, by decide⟩

/-- C3, amended: the staged rewrites append one `Change` per match whose
surrounding line passes the comment filter (`SaveManager.gd` filters
comment lines; the `.tscn` and `ResourcePackLoader` rewrites count every
match), and the search-based rewrites append one `Change` per rule that
finds at least one match. -/
theorem C3_change_counts :
    (∀ t : Text, (patch_save_manager_core t).2.length =
        filteredMatchCount true saveManagerRules t) ∧
    (∀ t : Text, (patch_tscn_core t).2.length =
        filteredMatchCount false tscnRules t) ∧
    (∀ t : Text, (patch_resource_pack_loader_core t).2.length =
        filteredMatchCount false resourcePackRules t) ∧
    (∀ (rules : List RuleD) (t : Text),
        (applySearch rules t).2.length = searchHitCount rules t) := by
  exact ⟨fun t => applyAllMatches_length true saveManagerRules t,
    fun t => applyAllMatches_length false tscnRules t,
    fun t => applyAllMatches_length false resourcePackRules t,
    fun rules t => applySearch_length rules t⟩

/-- C4: for the same well-formed initial tree (no duplicate paths, fresh
backup directory for this run's timestamp), a dry run computes exactly the
same per-file change lists as an apply run, and the dry run writes no file
at all. -/
theorem C4_dry_run_symmetry (ts : String) (fs : FS)
    (h1 : NodupKeys fs) (h2 : FreshBackups ts fs) :
    (runPatcher ts true fs).fs = fs ∧
    (runPatcher ts true fs).results.map projRes =
      (runPatcher ts false fs).results.map projRes :=
  ⟨runPatcher_dry_fs ts fs, runPatcher_dry_apply_proj ts fs h1 h2⟩

/-- C4, witness: the dry-run/apply symmetry on a concrete project tree. -/
theorem C4_witness :
    NodupKeys demoProject ∧ FreshBackups ts0 demoProject ∧
    ((runPatcher ts0 true demoProject).fs = demoProject ∧
     (runPatcher ts0 true demoProject).results.map projRes =
       (runPatcher ts0 false demoProject).results.map projRes) :=
  ⟨by decide, by decide, C4_dry_run_symmetry ts0 demoProject (by decide) (by decide)⟩

/-- C5: in an apply run over a well-formed tree, any non-backup file whose
content differs afterwards has a copy of its original content stored at
`backups/<timestamp>/<relative path>` in the final tree; no target file is
overwritten without that snapshot. -/
theorem C5_backup_before_write (ts : String) (fs : FS)
    (h1 : NodupKeys fs) (h2 : FreshBackups ts fs) (p : Path)
    (hp : underBackups p = false)
    (hch : readFS (runPatcher ts false fs).fs p ≠ readFS fs p) :
    readFS (runPatcher ts false fs).fs (backupPath ts p) = readFS fs p :=
  runPatcher_backup ts fs h1 h2 p hp hch

/-- C5, witness: on the concrete tree, `SaveManager.gd` is rewritten and
its original content is found in the run's backup directory. -/
theorem C5_witness :
    NodupKeys demoProject ∧ FreshBackups ts0 demoProject ∧
    underBackups saveManagerPath = false ∧
    readFS (runPatcher ts0 false demoProject).fs saveManagerPath ≠
      readFS demoProject saveManagerPath ∧
    readFS (runPatcher ts0 false demoProject).fs (backupPath ts0 saveManagerPath) =
      readFS demoProject saveManagerPath :=
  ⟨by decide, by decide, by decide, by decide,
   C5_backup_before_write ts0 demoProject (by decide) (by decide)
     saveManagerPath (by decide) (by decide)⟩

/-- C6, counterexample: a tree in which every line containing a forbidden
pattern is a comment line, yet verification still reports a residual match:
`.tscn` files are scanned whole, without comment exclusion. -/
theorem C6_counterexample :
    (verify_patches commentOnlyProject).2 ≠ [] ∧
    (∀ e ∈ commentOnlyProject, ∀ l ∈ splitNl e.2,
      textHasForbidden l = true → is_comment_line l = true) := by
  exact ⟨by decide, by decide⟩

/-- C6, amended: comment-line exclusion holds for the `.gd` scan only:
every line-level residual report `(file, line)` points at a non-comment
line of a `.gd` file that contains a forbidden pattern (`.tscn` files are
matched against their whole content, comments included). -/
theorem C6_gd_comment_exclusion (fs : FS) (p : Path) (i : Nat)
    (h : (p, some i) ∈ (verify_patches fs).2) :
    ∃ c, (p, c) ∈ fs ∧ gdFile p = true ∧ ∃ l,
      (splitNl c)[i - 1]? = some l ∧ is_comment_line l = false ∧
      textHasForbidden l = true :=
  verify_gd_entry h

/-- C6, witness: the amended claim applied to a concrete reported line. -/
theorem C6_witness :
    (((["A.gd"] : Path), some 1) ∈ (verify_patches gdHitProject).2) ∧
    (∃ c, ((["A.gd"] : Path), c) ∈ gdHitProject ∧ gdFile ["A.gd"] = true ∧
      ∃ l, (splitNl c)[1 - 1]? = some l ∧ is_comment_line l = false ∧
        textHasForbidden l = true) :=
  ⟨by decide, C6_gd_comment_exclusion gdHitProject ["A.gd"] 1 (by decide)⟩

/-- C7, counterexample: the `DirAccess...\s*(\s*"user://saves"\s*)` rule
consumes a newline, so a later rule's `Change` records line 2 although the
matched literal `"user://achievements.sav"` occurs only on line 3 of the
original text. -/
theorem C7_counterexample :
    (patch_save_manager_core
        ("DirAccess.make_dir_recursive_absolute(".data ++ '\n' ::
          "\"user://saves\")".data ++ '\n' ::
          "var a = \"user://achievements.sav\"".data)).2 =
      [{ line_number := 1, description := "make_dir saves actualizado" },
       { line_number := 2, description := "achievements.sav actualizado" }] ∧
    occLines "\"user://achievements.sav\"".data
        ("DirAccess.make_dir_recursive_absolute(".data ++ '\n' ::
          "\"user://saves\")".data ++ '\n' ::
          "var a = \"user://achievements.sav\"".data) = [3] := by
  exact ⟨by decide, by decide⟩

/-- C7, amended: every recorded `Change` is line-accurate with respect to
the text the rule was applied to (the content as already rewritten by the
earlier rules of the list): its line number is the 1-based line of an
actual match of that rule in that stage input.  This equals the original
line number except when an earlier whitespace-consuming rule removed a
newline. -/
theorem C7_line_numbers (cf : Bool) (rules : List RuleD) (t : Text)
    (c : Change) (hc : c ∈ (applyAllMatches cf rules t).2) :
    ∃ u rd, (u, rd) ∈ stageInputs rules t ∧
      ∃ pos len rep, ruleMatchAt rd.rule (u.drop pos) = some (len, rep) ∧
        c.line_number = lineNumAt u pos ∧ c.description = rd.desc ∧
        (cf = true → is_comment_line (lineAt u pos) = false) :=
  applyAllMatches_sound rules t c hc

/-- C7, witness: the amended claim applied to a concrete recorded change. -/
theorem C7_witness :
    ((⟨1, "achievements.sav actualizado", "", ""⟩ : Change) ∈
      (applyAllMatches true saveManagerRules
        "x := \"user://achievements.sav\"".data).2) ∧
    (∃ u rd, (u, rd) ∈ stageInputs saveManagerRules
        "x := \"user://achievements.sav\"".data ∧
      ∃ pos len rep, ruleMatchAt rd.rule (u.drop pos) = some (len, rep) ∧
        (⟨1, "achievements.sav actualizado", "", ""⟩ : Change).line_number =
          lineNumAt u pos ∧
        (⟨1, "achievements.sav actualizado", "", ""⟩ : Change).description =
          rd.desc ∧
        (true = true → is_comment_line (lineAt u pos) = false)) :=
  ⟨by decide, C7_line_numbers true saveManagerRules
    "x := \"user://achievements.sav\"".data
    ⟨1, "achievements.sav actualizado", "", ""⟩ (by decide)⟩

/-- C8: with no directory named, `rollback` fails exactly when no backups
exist, and otherwise restores the backup whose name is lexicographically
greatest (every file under it is copied back over its relative path); with
a named directory it restores that one instead, failing exactly when no
backups exist or the named directory does not; the tree is assumed
well-formed (unique paths, no backups of backups). -/
theorem C8_rollback (fs : FS) (h1 : NodupKeys fs) (h2 : noNestedB fs = true) :
    ((rollback fs none).1 = false ↔ list_backups fs = []) ∧
    (∀ d, (rollback fs (some d)).1 = false ↔
      (list_backups fs = [] ∨ backupDirHasFiles fs d = false)) ∧
    (∀ b0 r, list_backups fs = b0 :: r →
      (∀ x ∈ backupDirNames fs, stringLeB x b0 = true) ∧
      (∀ p c, (p, c) ∈ fs → pathBackupName p = some b0 →
        readFS (rollback fs none).2 (p.drop 2) = some c)) ∧
    (∀ d b0 r, list_backups fs = b0 :: r → backupDirHasFiles fs d = true →
      ∀ p c, (p, c) ∈ fs → pathBackupName p = some d →
        readFS (rollback fs (some d)).2 (p.drop 2) = some c) := by
  refine ⟨rollback_none_false_iff fs, fun d => rollback_some_false_iff fs d, ?_, ?_⟩
  · intro b0 r hb
    refine ⟨sortDescending_head_max hb, ?_⟩
    intro p c hpc hpd
    have hmem : b0 ∈ backupDirNames fs := by
      have hms := (mem_sortDescending (backupDirNames fs) b0).mp
      rw [show sortDescending (backupDirNames fs) = list_backups fs from rfl, hb] at hms
      exact hms (List.mem_cons_self b0 r)
    have hbd := backupDirHasFiles_of_mem hmem
    have hroll : (rollback fs none).2 = (backupFilesOf fs b0).foldl restoreFile fs := by
      simp [rollback, hb, hbd]
    rw [hroll]
    exact restoredFS_reads fs b0 h1 h2 p c hpc hpd
  · intro d b0 r hb hbd p c hpc hpd
    have hroll : (rollback fs (some d)).2
        = (backupFilesOf fs d).foldl restoreFile fs := by
      simp [rollback, hb, hbd]
    rw [hroll]
    exact restoredFS_reads fs d h1 h2 p c hpc hpd

/-- C8, witness: on a concrete tree with two backups, the unnamed rollback
restores the file of the latest backup over `a.gd`. -/
theorem C8_witness :
    NodupKeys demoBackups ∧ noNestedB demoBackups = true ∧
    list_backups demoBackups =
      "20240202_000000" :: ["20240202_000000", "20240101_000000"] ∧
    ((["backups", "20240202_000000", "a.gd"] : Path), "old2".data) ∈ demoBackups ∧
    readFS (rollback demoBackups none).2
      (List.drop 2 (["backups", "20240202_000000", "a.gd"] : Path)) = some "old2".data :=
  ⟨by decide, by decide, by decide, by decide,
   ((C8_rollback demoBackups (by decide) (by decide)).2.2.1
      "20240202_000000" ["20240202_000000", "20240101_000000"] (by decide)).2
     ["backups", "20240202_000000", "a.gd"] "old2".data (by decide) (by decide)⟩

/-- C9, counterexample: two overlapping occurrences of
`"user://achievements.sav"` share a quote; the scan rewrites only the first
and its replacement's closing quote recreates a full pattern occurrence, so
re-applying the list to the output changes it again and records a change. -/
theorem C9_counterexample :
    (patch_save_manager_core
        (patch_save_manager_core
          "\"user://achievements.sav\"user://achievements.sav\"".data).1).2 ≠ [] ∧
    (patch_save_manager_core
        (patch_save_manager_core
          "\"user://achievements.sav\"user://achievements.sav\"".data).1).1 ≠
      (patch_save_manager_core
        "\"user://achievements.sav\"user://achievements.sav\"".data).1 := by
  exact ⟨by decide, by decide⟩

/-- C9, amended: a text in which no rule pattern matches anywhere is a
fixed point producing zero changes; in particular a first application's
output is only guaranteed unchanged by a second application when it is
match-free, which boundary effects between overlapping occurrences can
violate. -/
theorem C9_fixed_point :
    (∀ (cf : Bool) (rules : List RuleD) (t : Text),
        (∀ rd ∈ rules, hasMatchIn rd.rule t = false) →
        applyAllMatches cf rules t = (t, [])) ∧
    (∀ t : Text, (∀ rd ∈ saveManagerRules, hasMatchIn rd.rule t = false) →
        patch_save_manager_core t = (t, [])) :=
  ⟨fun cf rules t h => applyAllMatches_of_no_match cf rules t h,
   fun t h => applyAllMatches_of_no_match true saveManagerRules t h⟩

/-- C9, witness: the fixed-point property on a concrete match-free text. -/
theorem C9_witness :
    (∀ rd ∈ saveManagerRules, hasMatchIn rd.rule "abc".data = false) ∧
    patch_save_manager_core "abc".data = ("abc".data, []) :=
  ⟨by decide, C9_fixed_point.2 "abc".data (by decide)⟩

/-- C10: `Scripts/Parts/ResourcePackLoader.gd` is the only optional fixed
target: missing, it yields a successful `FileResult` carrying the message
`Archivo no encontrado (opcional)` and the exit status is unaffected;
a missing file at any of the five other fixed targets yields a failed
`FileResult` and forces a non-zero exit status. -/
theorem C10_optional_target :
    (∀ (ts : String) (dry : Bool) (st : PatcherSt),
        readFS st.fs resourcePackLoaderPath = none →
        (execStep ts dry st resourceStep).results = st.results ++
          [{ filepath := resourcePackLoaderPath, success := true,
             error := some "Archivo no encontrado (opcional)" }]) ∧
    (∀ (ts : String) (dry : Bool) (st : PatcherSt),
        ∀ s ∈ [exportStep, globalStep, settingsStep, modLoaderStep, saveStep],
        readFS st.fs s.target = none →
        (execStep ts dry st s).results = st.results ++
          [{ filepath := s.target, success := false,
             error := some "Archivo no encontrado" }]) ∧
    (∀ (ts : String) (fs : FS),
        readFS fs resourcePackLoaderPath = none →
        (readFS fs projectGodotPath).isSome = true →
        mandatoryPresentB fs = true →
        (runPatcher ts false fs).ok = true ∧ mainApplyExit ts fs = 0) ∧
    (∀ (ts : String) (fs : FS),
        ∀ s ∈ [exportStep, globalStep, settingsStep, modLoaderStep, saveStep],
        readFS fs s.target = none →
        (runPatcher ts false fs).ok = false ∧ mainApplyExit ts fs = 1) := by
  refine ⟨?_, ?_, ?_, ?_⟩
  · intro ts dry st h
    rw [execStep_results, show readFS st.fs resourceStep.target = none from h]
    rfl
  · intro ts dry st s hs h
    fin_cases hs <;> (rw [execStep_results, h]; rfl)
  · intro ts fs hres hproj hmand
    have hok : (runPatcher ts false fs).ok = true := by
      rw [runPatcher_ok_char, hproj, hmand]
      rfl
    exact ⟨hok, by rw [mainApplyExit, hok]; rfl⟩
  · intro ts fs s hs h
    have hmand : mandatoryPresentB fs = false := by
      fin_cases hs <;> simp_all [mandatoryPresentB, exportStep, globalStep,
        settingsStep, modLoaderStep, saveStep]
    have hok : (runPatcher ts false fs).ok = false := by
      rw [runPatcher_ok_char, hmand]
      simp
    exact ⟨hok, by rw [mainApplyExit, hok]; rfl⟩

/-- C10, witness: the concrete tree without `ResourcePackLoader.gd` exits
0, while removing `SaveManager.gd` instead forces exit 1. -/
theorem C10_witness :
    readFS demoProject resourcePackLoaderPath = none ∧
    ((runPatcher ts0 false demoProject).ok = true ∧
     mainApplyExit ts0 demoProject = 0) ∧
    readFS demoProjectNoSave saveManagerPath = none ∧
    ((runPatcher ts0 false demoProjectNoSave).ok = false ∧
     mainApplyExit ts0 demoProjectNoSave = 1) :=
  ⟨by decide,
   C10_optional_target.2.2.1 ts0 demoProject (by decide) (by decide) (by decide),
   by decide,
   C10_optional_target.2.2.2 ts0 demoProjectNoSave saveStep
     (List.mem_cons_of_mem _ (List.mem_cons_of_mem _ (List.mem_cons_of_mem _
       (List.mem_cons_of_mem _ (List.mem_cons_self _ _)))))
     (by decide)⟩

end PatchAndroid
